import Mathlib

/-!
Verification development for the tracker-featurization module
(`rasa/core/featurizers.py`): a shallow embedding of the state
dictionaries, the intent-disambiguation pass, the two windowing variants
(full-dialogue and max-history), hashing-based deduplication, padding,
encoding, and persistence loading, together with theorems settling the
specified behaviours.

Python `dict`s (insertion ordered, unique keys) are embedded as
association lists `List (String × ℚ)`; float weights are embedded as
rationals.  Fallible code returns `Except String`.
-/

namespace RasaFeaturizers

/-- A turn's symbolic state: an insertion-ordered mapping from feature
name to weight, embedded as an association list (Python `dict`). -/
abbrev State := List (String × ℚ)

/-- Whether a feature name is an intent feature
(`state_name.startswith("intent_")`), computed structurally on the
character list so that concrete instances evaluate in the kernel. -/
def isIntentKey (k : String) : Bool := "intent_".data.isPrefixOf k.data

/-- Python `d[k] = v`: update the value in place when the key is present
(keeping its position), otherwise append the new binding. -/
def dictSet (d : State) (k : String) (v : ℚ) : State :=
  if d.any (fun p => p.1 == k) then
    d.map (fun p => if p.1 == k then (k, v) else p)
  else
    d ++ [(k, v)]

/-- Python `del d[k]`: remove the binding for `k`. -/
def dictDel (d : State) (k : String) : State :=
  d.filter (fun p => !(p.1 == k))

/-- Python `dict(pairs)`: build a dict from an iterable of pairs, later
bindings overwriting earlier ones in place. -/
def dictOf (pairs : List (String × ℚ)) : State :=
  pairs.foldl (fun d p => dictSet d p.1 p.2) []

/-- The loop of `TrackerFeaturizer._create_states` over one state's
`(state_name, prob)` pairs: track the best intent seen so far (running
maximum under strict `>`, initial best probability `-1.0`), deleting the
previous best when it is beaten and deleting every losing intent. -/
def intentLoop : List (String × ℚ) → State → Option String → ℚ →
    State × Option String
  | [], binState, bestIntent, _ => (binState, bestIntent)
  | p :: rest, binState, bestIntent, bestProb =>
    if isIntentKey p.1 then
      if bestProb < p.2 then
        intentLoop rest
          (match bestIntent with
           | some prev => dictDel binState prev
           | none => binState)
          (some p.1) p.2
      else
        intentLoop rest (dictDel binState p.1) bestIntent bestProb
    else
      intentLoop rest binState bestIntent bestProb

/-- Disambiguation of one state in `TrackerFeaturizer._create_states`:
copy the state to a dict, run the intent loop, then force the winning
intent's weight to `1.0` (when a winner exists). -/
def binarizeState (s : List (String × ℚ)) : State :=
  let r := intentLoop s (dictOf s) none (-1)
  match r.2 with
  | some best => dictSet r.1 best 1
  | none => r.1

/-- `TrackerFeaturizer._create_states`: when neither
`use_intent_probabilities` nor `is_binary_training` is set, binarize each
past state; otherwise copy each state to a dict unchanged. -/
def createStates (useIntentProbabilities isBinaryTraining : Bool)
    (pastStates : List (List (String × ℚ))) : List State :=
  if !useIntentProbabilities && !isBinaryTraining then
    pastStates.map binarizeState
  else
    pastStates.map dictOf

/-- `MaxHistoryTrackerFeaturizer.slice_state_history`: keep the most
recent `sliceLength` states, left-padding with `None` when the history is
shorter. -/
def sliceStateHistory (states : List State) (sliceLength : Nat) :
    List (Option State) :=
  let sliceEnd := states.length
  let padding : List (Option State) :=
    List.replicate (sliceLength - sliceEnd) none
  padding ++ (states.drop (sliceEnd - sliceLength)).map some

/-- A dialogue event, as far as this module reads it: an
`ActionExecuted` event (action name and `unpredictable` flag), or any
other event (opaque). -/
inductive Event
  | actionExecuted (name : String) (unpredictable : Bool)
  | other
deriving DecidableEq

/-- A dialogue tracker, read through its two accessors: the replayed
per-turn states (`past_states(domain)`) and the event log
(`applied_events()`). -/
structure Tracker where
  pastStates : List (List (String × ℚ))
  appliedEvents : List Event
deriving DecidableEq

/-- Number of action-executed events flagged unpredictable in a log. -/
def countUnpredictable (events : List Event) : Nat :=
  events.countP (fun e =>
    match e with
    | .actionExecuted _ u => u
    | .other => false)

/-- The names of the non-unpredictable executed actions, in event
order. -/
def predictableActionNames (events : List Event) : List String :=
  events.filterMap (fun e =>
    match e with
    | .actionExecuted n u => if u then none else some n
    | .other => none)

/-- The error raised by `FullDialogueTrackerFeaturizer` on a second
unpredictable action. -/
def twoUnpredictableMsg : String :=
  "Found two unpredictable actions in one story.Check your story files."

/-- The event loop in
`FullDialogueTrackerFeaturizer.training_states_and_actions`: collect
predictable action names; an unpredictable action sets the
delete-first-state flag, and a second one raises. -/
def scanActions : List Event → Bool → List String →
    Except String (Bool × List String)
  | [], deleteFirstState, actions => .ok (deleteFirstState, actions)
  | .actionExecuted n u :: rest, deleteFirstState, actions =>
    if !u then
      scanActions rest deleteFirstState (actions ++ [n])
    else if deleteFirstState then
      .error twoUnpredictableMsg
    else
      scanActions rest true actions
  | .other :: rest, deleteFirstState, actions =>
    scanActions rest deleteFirstState actions

/-- Per-tracker body of
`FullDialogueTrackerFeaturizer.training_states_and_actions`: build the
binary states, scan the events, drop the leading state when an
unpredictable action was seen, and drop the final state. -/
def processTrackerFull (useIntentProbabilities : Bool) (t : Tracker) :
    Except String (List (Option State) × List String) := do
  let states := createStates useIntentProbabilities true t.pastStates
  let (deleteFirstState, actions) ← scanActions t.appliedEvents false []
  let states := if deleteFirstState then states.drop 1 else states
  .ok (states.dropLast.map some, actions)

/-- `FullDialogueTrackerFeaturizer._calculate_max_len`: length of the
longest action list, `None` on an empty batch. -/
def calculateMaxLen (trackersAsActions : List (List String)) :
    Option Nat :=
  if trackersAsActions.isEmpty then none
  else some ((trackersAsActions.map List.length).foldl max 0)

/-- `FullDialogueTrackerFeaturizer.training_states_and_actions`: process
every tracker (aborting the whole batch on the first error) and compute
`max_len` over the resulting action lists. -/
def fullTrainingStatesAndActions (useIntentProbabilities : Bool)
    (trackers : List Tracker) :
    Except String
      (List (List (Option State)) × List (List String) × Option Nat) := do
  let pairs ← trackers.mapM (processTrackerFull useIntentProbabilities)
  let trackersAsStates := pairs.map Prod.fst
  let trackersAsActions := pairs.map Prod.snd
  .ok (trackersAsStates, trackersAsActions,
       calculateMaxLen trackersAsActions)

/-- `FullDialogueTrackerFeaturizer.prediction_states`. -/
def fullPredictionStates (useIntentProbabilities : Bool)
    (trackers : List Tracker) : List (List (Option State)) :=
  trackers.map (fun t =>
    (createStates useIntentProbabilities false t.pastStates).map some)

/-- The frozen form hashed by
`MaxHistoryTrackerFeaturizer._hash_example`: each window entry reduced to
the order-insensitive set of its key/value pairs (`frozenset(s.items())`,
embedded as a multiset), `None` kept as `None`, paired with the action
label. -/
def hashExample (states : List (Option State)) (action : String) :
    List (Option (Multiset (String × ℚ))) × String :=
  (states.map (Option.map (fun s => Multiset.ofList s)), action)

/-- Accumulator threaded through
`MaxHistoryTrackerFeaturizer.training_states_and_actions`: the set of
hashes seen so far and the emitted state windows and action labels. -/
structure MHAcc where
  hashed : List (List (Option (Multiset (String × ℚ))) × String)
  statesAcc : List (List (Option State))
  actionsAcc : List (List String)
deriving DecidableEq

/-- The event loop of
`MaxHistoryTrackerFeaturizer.training_states_and_actions` for one
tracker: at every predictable action, slice the state prefix to the
`max_history` window and emit it (subject to deduplication); `idx`
advances on every action-executed event. -/
def mhEvents (maxHistory : Nat) (removeDuplicates : Bool)
    (states : List State) :
    List Event → Nat → MHAcc → MHAcc
  | [], _, acc => acc
  | .actionExecuted n u :: rest, idx, acc =>
    if u then
      mhEvents maxHistory removeDuplicates states rest (idx + 1) acc
    else
      let slicedStates := sliceStateHistory (states.take (idx + 1)) maxHistory
      if removeDuplicates then
        let hashed := hashExample slicedStates n
        if hashed ∈ acc.hashed then
          mhEvents maxHistory removeDuplicates states rest (idx + 1) acc
        else
          mhEvents maxHistory removeDuplicates states rest (idx + 1)
            { hashed := acc.hashed ++ [hashed],
              statesAcc := acc.statesAcc ++ [slicedStates],
              actionsAcc := acc.actionsAcc ++ [[n]] }
      else
        mhEvents maxHistory removeDuplicates states rest (idx + 1)
          { acc with
            statesAcc := acc.statesAcc ++ [slicedStates],
            actionsAcc := acc.actionsAcc ++ [[n]] }
  | .other :: rest, idx, acc =>
    mhEvents maxHistory removeDuplicates states rest idx acc

/-- `MaxHistoryTrackerFeaturizer.training_states_and_actions`: run the
event loop over every tracker, sharing the deduplication set across the
whole batch. -/
def mhTrainingStatesAndActions (useIntentProbabilities : Bool)
    (maxHistory : Nat) (removeDuplicates : Bool)
    (trackers : List Tracker) :
    List (List (Option State)) × List (List String) :=
  let acc := trackers.foldl
    (fun acc t =>
      mhEvents maxHistory removeDuplicates
        (createStates useIntentProbabilities true t.pastStates)
        t.appliedEvents 0 acc)
    ⟨[], [], []⟩
  (acc.statesAcc, acc.actionsAcc)

/-- `MaxHistoryTrackerFeaturizer.prediction_states`: non-binary states,
sliced to the `max_history` window. -/
def mhPredictionStates (useIntentProbabilities : Bool) (maxHistory : Nat)
    (trackers : List Tracker) : List (List (Option State)) :=
  trackers.map (fun t =>
    sliceStateHistory
      (createStates useIntentProbabilities false t.pastStates) maxHistory)

/-- `FullDialogueTrackerFeaturizer._pad_states` (generic over the entry
type, as the source pads both state and action sequences): append `None`
entries up to `max_len`; longer sequences are returned unchanged. -/
def padStates (maxLen : Nat) (states : List (Option α)) :
    List (Option α) :=
  if states.length < maxLen then
    states ++ List.replicate (maxLen - states.length) none
  else
    states

/-- The external schema consumed from `Domain`: the action count and the
action-name lookup (which fails on an unknown name), plus the input-state
vocabulary used for encoder calibration. -/
structure Domain where
  numActions : Nat
  indexForAction : String → Option Nat
  inputStates : List String

/-- `SingleStateFeaturizer.action_as_one_hot`: `None` encodes to an
all-`-1` sentinel of length `num_actions`; a known action name to a
one-hot vector at its domain index; an unknown name or an out-of-range
index raises. -/
def actionAsOneHot (action : Option String) (d : Domain) :
    Except String (List Int) :=
  match action with
  | none => .ok (List.replicate d.numActions (-1))
  | some a =>
    match d.indexForAction a with
    | none => .error ("Cannot access action: " ++ a)
    | some i =>
      if i < d.numActions then
        .ok ((List.replicate d.numActions (0 : Int)).set i 1)
      else
        .error ("index out of bounds: " ++ a)

/-- The state encoder (`BOWSingleStateFeaturizer`), with its externally
trained vectorizer abstracted: `prepared` records whether
`prepare_from_domain` has run, `vocab` is the calibrated vocabulary
(`vectorizers["text"].vocabulary_`), and `encodeReal` stands for the
external `CountVectorsFeaturizer` encoding of a non-`None` state. -/
structure SingleStateF where
  prepared : Bool
  vocab : List String
  encodeReal : State → List Int

/-- `BOWSingleStateFeaturizer.encode` (dense output): `None` encodes to
the all-`-1` sentinel of the calibrated vocabulary length; a real state
is delegated to the external vectorizer. -/
def SingleStateF.encode (f : SingleStateF) (state : Option State) :
    List Int :=
  match state with
  | none => List.replicate f.vocab.length (-1)
  | some s => f.encodeReal s

/-- `BOWSingleStateFeaturizer.prepare_from_domain`: calibrate the
vectorizer from the domain's input-state keys (external training kept
abstract; the calibration itself is recorded). -/
def SingleStateF.prepareFromDomain (f : SingleStateF) (d : Domain) :
    SingleStateF :=
  { f with prepared := true, vocab := d.inputStates }

/-- The Python error raised when `_featurize_states` dereferences an
absent state featurizer (`self.state_featurizer.encode` on `None`). -/
def attributeErrorMsg : String :=
  "NoneType object has no attribute encode"

/-- One `encode` call through `self.state_featurizer`: raises when the
featurizer is absent, otherwise delegates. -/
def encodeDispatch (sf : Option SingleStateF) (state : Option State) :
    Except String (List Int) :=
  match sf with
  | none => .error attributeErrorMsg
  | some f => .ok (f.encode state)

/-- `TrackerFeaturizer._featurize_states`: record each dialogue's true
length, pad (when the batch holds more than one dialogue) with the
variant's `_pad_states`, and encode every entry. -/
def featurizeStates (pad : List (Option State) → List (Option State))
    (sf : Option SingleStateF)
    (trackersAsStates : List (List (Option State))) :
    Except String (List (List (List Int)) × List Nat) := do
  let features ← trackersAsStates.mapM (fun trackerStates =>
    (if trackersAsStates.length > 1 then pad trackerStates
     else trackerStates).mapM (encodeDispatch sf))
  .ok (features, trackersAsStates.map List.length)

/-- `TrackerFeaturizer._featurize_labels`: pad each action list (when the
batch holds more than one dialogue) and one-hot encode every action. -/
def featurizeLabels (pad : List (Option String) → List (Option String))
    (d : Domain) (trackersAsActions : List (List String)) :
    Except String (List (List (List Int))) :=
  trackersAsActions.mapM (fun trackerActions =>
    (if trackersAsActions.length > 1 then pad (trackerActions.map some)
     else trackerActions.map some).mapM (fun a => actionAsOneHot a d))

/-- The first feature key of a state that is an intent feature
(`[key for key in state_keys if key.startswith("intent_")][0]`). -/
def firstIntentKey (s : State) : Option String :=
  (s.map Prod.fst).find? isIntentKey

/-- One turn of `TrackerFeaturizer._postprocess_trackers_as_states`:
falsy turns (`None` or empty) and turns without an intent feature pass
through and keep the memory; a turn whose first intent key equals the
remembered one has that key deleted; otherwise the memory is updated. -/
def ppTurn (previousIntent : Option String) (turn : Option State) :
    Option State × Option String :=
  match turn with
  | none => (none, previousIntent)
  | some s =>
    if s.isEmpty then (some s, previousIntent)
    else
      match firstIntentKey s with
      | none => (some s, previousIntent)
      | some k =>
        if some k = previousIntent then (some (dictDel s k), previousIntent)
        else (some s, some k)

/-- The inner loop of `_postprocess_trackers_as_states` over one
sequence, threading the remembered intent. -/
def ppSeq : Option String → List (Option State) → List (Option State)
  | _, [] => []
  | prev, t :: rest =>
    let r := ppTurn prev t
    r.1 :: ppSeq r.2 rest

/-- `TrackerFeaturizer._postprocess_trackers_as_states`: compress
repeated intents in every sequence of the batch, each sequence starting
with no remembered intent. -/
def postprocessTrackersAsStates (tas : List (List (Option State))) :
    List (List (Option State)) :=
  tas.map (ppSeq none)

/-- The `ValueError` text of `TrackerFeaturizer.featurize_trackers` when
no state featurizer is configured. -/
def missingFeaturizerMsg : String :=
  "Variable state_featurizer is not set. Provide SingleStateFeaturizer class to featurize trackers."

/-- The `DialogueTrainingData` triple assembled by
`featurize_trackers`. -/
structure DialogueTrainingDataM where
  x : List (List (List Int))
  y : List (List (List Int))
  trueLengths : List Nat
deriving DecidableEq

/-- `TrackerFeaturizer.featurize_trackers` instantiated at the
full-dialogue variant: check the featurizer, calibrate it from the
domain, build training states and actions, compress repeated intents,
then featurize states and labels with padding to `max_len`.  The
calibrated featurizer is returned alongside the data to make the
calibration step observable. -/
def fullFeaturizeTrackers (useIntentProbabilities : Bool)
    (sf : Option SingleStateF) (trackers : List Tracker) (d : Domain) :
    Except String (DialogueTrainingDataM × SingleStateF) :=
  match sf with
  | none => .error missingFeaturizerMsg
  | some f => do
    let f := f.prepareFromDomain d
    let (tas, taa, maxLen) ←
      fullTrainingStatesAndActions useIntentProbabilities trackers
    let tas := postprocessTrackersAsStates tas
    let padWith : {α : Type} → List (Option α) → List (Option α) :=
      fun l => match maxLen with
        | some m => padStates m l
        | none => l
    let (x, trueLengths) ← featurizeStates padWith (some f) tas
    let y ← featurizeLabels padWith d taa
    .ok (⟨x, y, trueLengths⟩, f)

/-- `TrackerFeaturizer.create_X`: build prediction states with the
variant's `prediction_states` and featurize them — nothing else. -/
def createX (predictionStatesF : List Tracker → List (List (Option State)))
    (pad : List (Option State) → List (Option State))
    (sf : Option SingleStateF) (trackers : List Tracker) :
    Except String (List (List (List Int))) := do
  let trackersAsStates := predictionStatesF trackers
  let (x, _) ← featurizeStates pad sf trackersAsStates
  .ok x

/-- `os.path.join(path, "featurizer.json")`. -/
def featurizerFileName (path : String) : String :=
  path ++ "/featurizer.json"

/-- The file system visible to `load`, as a path-to-contents map. -/
def FileSystem := List (String × String)

/-- `os.path.isfile`. -/
def isFile (fs : FileSystem) (p : String) : Bool :=
  (List.lookup p fs).isSome

/-- `rasa.utils.io.read_file`: raises when the file is absent. -/
def readFile (fs : FileSystem) (p : String) : Except String String :=
  match List.lookup p fs with
  | some contents => .ok contents
  | none => .error ("No such file: " ++ p)

/-- `TrackerFeaturizer.load`: when the featurizer file exists, read and
deserialize it (`jsonpickle.decode` abstracted as `decode`); otherwise
log an error and return `None`. -/
def trackerFeaturizerLoad (F : Type) (decode : String → F)
    (fs : FileSystem) (path : String) : Except String (Option F) :=
  let featurizerFile := featurizerFileName path
  if isFile fs featurizerFile then do
    let contents ← readFile fs featurizerFile
    .ok (some (decode contents))
  else
    .ok none

/-- A small concrete tracker used to instantiate theorems: one leading
unpredictable `action_listen`, one opaque event, and two predictable
actions. -/
def sampleTracker : Tracker :=
  { pastStates := [[("intent_hi", 1)],
                   [("intent_hi", 1), ("prev_listen", 1)],
                   [("intent_bye", 1)]],
    appliedEvents := [.actionExecuted "action_listen" true, .other,
                      .actionExecuted "utter_hi" false,
                      .actionExecuted "utter_bye" false] }

/-- The first action-executed event in a log, with its name and
unpredictable flag. -/
def firstActionExecuted : List Event → Option (String × Bool)
  | [] => none
  | .actionExecuted n u :: _ => some (n, u)
  | .other :: rest => firstActionExecuted rest

/-- A tracker holding two unpredictable action-executed events. -/
def twoUnpredTracker : Tracker :=
  { pastStates := [[("intent_hi", 1)], [("intent_bye", 1)]],
    appliedEvents := [.actionExecuted "action_listen" true,
                      .actionExecuted "action_restart" true] }

/-- The hash of one emitted (window, label-list) example; labels are
emitted as singleton lists, so the hash is taken at the first label. -/
def exampleHash (p : List (Option State) × List String) :
    List (Option (Multiset (String × ℚ))) × String :=
  hashExample p.1 (p.2.headD "")

/-- The hashes of the examples emitted so far, in emission order. -/
def emittedHashes (acc : MHAcc) :
    List (List (Option (Multiset (String × ℚ))) × String) :=
  (acc.statesAcc.zip acc.actionsAcc).map exampleHash

/-- Invariant of the deduplicating max-history loop: the hash set is
exactly the emitted examples' hashes, states and actions are emitted in
lockstep, and no hash repeats. -/
structure MHInv (acc : MHAcc) : Prop where
  hashedEq : acc.hashed = emittedHashes acc
  lenEq : acc.statesAcc.length = acc.actionsAcc.length
  nodup : acc.hashed.Nodup

/-- The memory update of the compressor, stated without reference to the
deletion logic: a truthy turn with a first intent key becomes the new
remembered intent; falsy turns and turns without an intent keep the
memory. -/
def keptUpdate (prev : Option String) (turn : Option State) :
    Option String :=
  match turn with
  | none => prev
  | some s =>
    if s.isEmpty then prev
    else
      match firstIntentKey s with
      | none => prev
      | some k => some k

/-- The intent remembered by the compressor after scanning the given
turns, starting from `prev`. -/
def lastSeenIntent (prev : Option String) (turns : List (Option State)) :
    Option String :=
  turns.foldl keptUpdate prev

/-- The intent-prefixed entries of a raw state, in order. -/
def intentEntries (s : List (String × ℚ)) : List (String × ℚ) :=
  s.filter (fun p => isIntentKey p.1)

/-- The intent-prefixed keys of a raw state, in order. -/
def intentKeys (s : List (String × ℚ)) : List String :=
  (intentEntries s).map Prod.fst

/-- The running-best part of the `_create_states` loop in isolation. -/
def runBest : List (String × ℚ) → Option String → ℚ →
    Option String × ℚ
  | [], best, bp => (best, bp)
  | p :: rest, best, bp =>
    if isIntentKey p.1 then
      if bp < p.2 then runBest rest (some p.1) p.2
      else runBest rest best bp
    else runBest rest best bp

/-- The running-best scan restricted to intent entries. -/
def runBestI : List (String × ℚ) → Option String → ℚ →
    Option String × ℚ
  | [], best, bp => (best, bp)
  | p :: rest, best, bp =>
    if bp < p.2 then runBestI rest (some p.1) p.2
    else runBestI rest best bp

/-- Which keys of the copied dict survive the intent loop, given the
incoming best, the final winner and the intent keys scanned. -/
def keepKey (bestStart finalBest : Option String) (lkeys : List String)
    (k : String) : Bool :=
  if isIntentKey k = false then true
  else if bestStart = some k then decide (finalBest = some k)
  else if k ∈ lkeys then decide (finalBest = some k)
  else true

/-- A one-action domain used to instantiate the inference-path
theorem. -/
def sampleDomain : Domain :=
  ⟨1, fun a => if a = "utter_hi" then some 0 else none, ["intent_hi"]⟩

/-- An uncalibrated featurizer whose encoder reveals how many features a
state carries. -/
def revealingF : SingleStateF :=
  ⟨false, ["a"], fun s => [(s.length : Int)]⟩

/-- A tracker with two consecutive turns carrying the same intent. -/
def dupIntentTracker : Tracker :=
  ⟨[[("intent_hi", 1)], [("intent_hi", 1)]], []⟩

/-! ## Helper lemmas -/

lemma sliceStateHistory_length (states : List State) (sliceLength : Nat) :
    (sliceStateHistory states sliceLength).length = sliceLength := by
  simp only [sliceStateHistory, List.length_append, List.length_replicate,
    List.length_map, List.length_drop]
  omega

lemma mhEvents_statesAcc_length (maxHistory : Nat) (states : List State) :
    ∀ (events : List Event) (removeDuplicates : Bool) (idx : Nat)
      (acc : MHAcc),
      (∀ w ∈ acc.statesAcc, w.length = maxHistory) →
      ∀ w ∈ (mhEvents maxHistory removeDuplicates states events idx
                acc).statesAcc,
        w.length = maxHistory := by
  intro events
  induction events with
  | nil => intro rd idx acc hacc w hw; exact hacc w hw
  | cons e rest ih =>
    intro rd idx acc hacc w hw
    have happend : ∀ (sl : List (Option State)) (n : String),
        sl.length = maxHistory →
        ∀ w' ∈ acc.statesAcc ++ [sl], w'.length = maxHistory := by
      intro sl n hsl w' hw'
      rcases List.mem_append.mp hw' with h | h
      · exact hacc w' h
      · rcases List.mem_singleton.mp h with rfl
        exact hsl
    match e with
    | .other => exact ih rd idx acc hacc w hw
    | .actionExecuted n u =>
      cases u with
      | true =>
        simp only [mhEvents, if_pos] at hw
        exact ih rd (idx + 1) acc hacc w hw
      | false =>
        cases rd with
        | false =>
          simp only [mhEvents, Bool.false_eq_true, if_false] at hw
          exact ih false (idx + 1) _
            (happend _ n (sliceStateHistory_length _ _)) w hw
        | true =>
          simp only [mhEvents, Bool.false_eq_true, if_false, if_true] at hw
          by_cases hmem :
              hashExample (sliceStateHistory (states.take (idx + 1))
                maxHistory) n ∈ acc.hashed
          · rw [if_pos hmem] at hw
            exact ih true (idx + 1) acc hacc w hw
          · rw [if_neg hmem] at hw
            exact ih true (idx + 1) _
              (happend _ n (sliceStateHistory_length _ _)) w hw

lemma mhFoldl_statesAcc_length (useIntentProbabilities : Bool)
    (maxHistory : Nat) (removeDuplicates : Bool) :
    ∀ (trackers : List Tracker) (acc : MHAcc),
      (∀ w ∈ acc.statesAcc, w.length = maxHistory) →
      ∀ w ∈ (trackers.foldl
               (fun acc t =>
                 mhEvents maxHistory removeDuplicates
                   (createStates useIntentProbabilities true t.pastStates)
                   t.appliedEvents 0 acc)
               acc).statesAcc,
        w.length = maxHistory := by
  intro trackers
  induction trackers with
  | nil => intro acc hacc w hw; exact hacc w hw
  | cons t rest ih =>
    intro acc hacc w hw
    rw [List.foldl_cons] at hw
    exact ih _ (mhEvents_statesAcc_length _ _ _ _ _ _ hacc) w hw

lemma except_bind_ok {ε α β : Type} (a : α) (f : α → Except ε β) :
    (Except.ok a >>= f) = f a := rfl

lemma except_bind_err {ε α β : Type} (e : ε) (f : α → Except ε β) :
    ((Except.error e : Except ε α) >>= f) = .error e := rfl

lemma countUnpredictable_cons_action (n : String) (u : Bool)
    (rest : List Event) :
    countUnpredictable (.actionExecuted n u :: rest) =
      countUnpredictable rest + if u then 1 else 0 := by
  simp [countUnpredictable, List.countP_cons]

lemma countUnpredictable_cons_other (rest : List Event) :
    countUnpredictable (.other :: rest) = countUnpredictable rest := by
  simp [countUnpredictable, List.countP_cons]

lemma scanActions_no_unpred :
    ∀ (events : List Event) (df : Bool) (acts : List String),
      countUnpredictable events = 0 →
      scanActions events df acts =
        .ok (df, acts ++ predictableActionNames events) := by
  intro events
  induction events with
  | nil => intro df acts _; simp [scanActions, predictableActionNames]
  | cons e rest ih =>
    intro df acts h
    match e with
    | .other =>
      rw [countUnpredictable_cons_other] at h
      simpa [scanActions, predictableActionNames] using ih df acts h
    | .actionExecuted n u =>
      rw [countUnpredictable_cons_action] at h
      cases u with
      | true => simp at h
      | false =>
        simp at h
        rw [show scanActions (.actionExecuted n false :: rest) df acts =
              scanActions rest df (acts ++ [n]) from rfl, ih df _ h]
        simp [predictableActionNames, List.filterMap_cons]

lemma scanActions_after_unpred :
    ∀ (events : List Event) (acts : List String),
      1 ≤ countUnpredictable events →
      scanActions events true acts = .error twoUnpredictableMsg := by
  intro events
  induction events with
  | nil => intro acts h; simp [countUnpredictable] at h
  | cons e rest ih =>
    intro acts h
    match e with
    | .other =>
      rw [countUnpredictable_cons_other] at h
      simpa [scanActions] using ih acts h
    | .actionExecuted n u =>
      rw [countUnpredictable_cons_action] at h
      cases u with
      | true => rfl
      | false =>
        simp at h
        exact ih (acts ++ [n]) h

lemma scanActions_one_unpred :
    ∀ (events : List Event) (acts : List String),
      countUnpredictable events = 1 →
      scanActions events false acts =
        .ok (true, acts ++ predictableActionNames events) := by
  intro events
  induction events with
  | nil => intro acts h; simp [countUnpredictable] at h
  | cons e rest ih =>
    intro acts h
    match e with
    | .other =>
      rw [countUnpredictable_cons_other] at h
      simpa [scanActions, predictableActionNames] using ih acts h
    | .actionExecuted n u =>
      rw [countUnpredictable_cons_action] at h
      cases u with
      | true =>
        simp at h
        have hrest : countUnpredictable rest = 0 := by omega
        rw [show scanActions (.actionExecuted n true :: rest) false acts =
              scanActions rest true acts from rfl,
          scanActions_no_unpred rest true acts hrest]
        simp [predictableActionNames, List.filterMap_cons]
      | false =>
        simp at h
        rw [show scanActions (.actionExecuted n false :: rest) false acts =
              scanActions rest false (acts ++ [n]) from rfl, ih _ h]
        simp [predictableActionNames, List.filterMap_cons]

lemma scanActions_two_unpred :
    ∀ (events : List Event) (df : Bool) (acts : List String),
      2 ≤ countUnpredictable events →
      scanActions events df acts = .error twoUnpredictableMsg := by
  intro events
  induction events with
  | nil => intro df acts h; simp [countUnpredictable] at h
  | cons e rest ih =>
    intro df acts h
    match e with
    | .other =>
      rw [countUnpredictable_cons_other] at h
      simpa [scanActions] using ih df acts h
    | .actionExecuted n u =>
      rw [countUnpredictable_cons_action] at h
      cases u with
      | true =>
        cases df with
        | true => rfl
        | false =>
          simp at h
          exact scanActions_after_unpred rest acts (by omega)
      | false =>
        simp at h
        exact ih df (acts ++ [n]) h

lemma processTrackerFull_zero (uip : Bool) (t : Tracker)
    (h : countUnpredictable t.appliedEvents = 0) :
    processTrackerFull uip t =
      .ok ((createStates uip true t.pastStates).dropLast.map some,
           predictableActionNames t.appliedEvents) := by
  simp only [processTrackerFull, scanActions_no_unpred _ _ _ h,
    except_bind_ok, List.nil_append]
  rfl

lemma processTrackerFull_one (uip : Bool) (t : Tracker)
    (h : countUnpredictable t.appliedEvents = 1) :
    processTrackerFull uip t =
      .ok (((createStates uip true t.pastStates).drop 1).dropLast.map some,
           predictableActionNames t.appliedEvents) := by
  simp only [processTrackerFull, scanActions_one_unpred _ _ h,
    except_bind_ok, List.nil_append]
  rfl

lemma processTrackerFull_two (uip : Bool) (t : Tracker)
    (h : 2 ≤ countUnpredictable t.appliedEvents) :
    processTrackerFull uip t = .error twoUnpredictableMsg := by
  simp only [processTrackerFull, scanActions_two_unpred _ _ _ h,
    except_bind_err]

lemma processTrackerFull_cases (uip : Bool) (t : Tracker) :
    processTrackerFull uip t = .error twoUnpredictableMsg
    ∨ ∃ v, processTrackerFull uip t = .ok v := by
  rcases Nat.lt_or_ge (countUnpredictable t.appliedEvents) 2 with h | h
  · interval_cases h' : countUnpredictable t.appliedEvents
    · exact .inr ⟨_, processTrackerFull_zero uip t h'⟩
    · exact .inr ⟨_, processTrackerFull_one uip t h'⟩
  · exact .inl (processTrackerFull_two uip t h)

lemma mapM_processTracker_error :
    ∀ (uip : Bool) (trackers : List Tracker),
      (∃ t ∈ trackers, 2 ≤ countUnpredictable t.appliedEvents) →
      trackers.mapM (processTrackerFull uip) =
        .error twoUnpredictableMsg := by
  intro uip trackers
  induction trackers with
  | nil => rintro ⟨t, ht, _⟩; simp at ht
  | cons t rest ih =>
    rintro ⟨t', ht', hcnt⟩
    rw [List.mapM_cons]
    rcases List.mem_cons.mp ht' with rfl | hmem
    · rw [processTrackerFull_two uip t' hcnt]
      rfl
    · rcases processTrackerFull_cases uip t with herr | ⟨v, hok⟩
      · rw [herr]; rfl
      · rw [hok, except_bind_ok, ih ⟨t', hmem, hcnt⟩, except_bind_err]

lemma fullTraining_error_of_two :
    ∀ (uip : Bool) (trackers : List Tracker),
      (∃ t ∈ trackers, 2 ≤ countUnpredictable t.appliedEvents) →
      fullTrainingStatesAndActions uip trackers =
        .error twoUnpredictableMsg := by
  intro uip trackers h
  simp only [fullTrainingStatesAndActions]
  rw [mapM_processTracker_error uip trackers h, except_bind_err]

lemma mhEvents_all_unpred :
    ∀ (events : List Event),
      (∀ e ∈ events, ∃ n, e = .actionExecuted n true) →
      ∀ (maxH : Nat) (rd : Bool) (states : List State) (idx : Nat)
        (acc : MHAcc),
        mhEvents maxH rd states events idx acc = acc := by
  intro events
  induction events with
  | nil => intro _ maxH rd states idx acc; rfl
  | cons e rest ih =>
    intro h maxH rd states idx acc
    rcases h e (List.mem_cons_self e rest) with ⟨n, rfl⟩
    simp only [mhEvents, if_pos]
    exact ih (fun e' he' => h e' (List.mem_cons_of_mem _ he')) maxH rd
      states (idx + 1) acc

lemma one_le_count_of_firstAction_unpred :
    ∀ (events : List Event) (n : String),
      firstActionExecuted events = some (n, true) →
      1 ≤ countUnpredictable events := by
  intro events
  induction events with
  | nil => intro n h; simp [firstActionExecuted] at h
  | cons e rest ih =>
    intro n h
    match e with
    | .other =>
      rw [countUnpredictable_cons_other]
      exact ih n h
    | .actionExecuted n' u =>
      simp only [firstActionExecuted, Option.some_inj,
        Prod.mk.injEq] at h
      rw [countUnpredictable_cons_action, h.2, if_pos rfl]
      omega

lemma le_foldl_max :
    ∀ (l : List Nat) (a : Nat),
      a ≤ l.foldl max a ∧ ∀ x ∈ l, x ≤ l.foldl max a := by
  intro l
  induction l with
  | nil => intro a; exact ⟨le_refl a, by simp⟩
  | cons b rest ih =>
    intro a
    rcases ih (max a b) with ⟨h1, h2⟩
    refine ⟨le_trans (le_max_left a b) h1, ?_⟩
    intro x hx
    rcases List.mem_cons.mp hx with rfl | hx
    · exact le_trans (le_max_right a x) h1
    · exact h2 x hx

lemma foldl_max_mem :
    ∀ (l : List Nat) (a : Nat), l.foldl max a = a ∨ l.foldl max a ∈ l := by
  intro l
  induction l with
  | nil => intro a; exact .inl rfl
  | cons b rest ih =>
    intro a
    rcases ih (max a b) with h | h
    · rcases max_choice a b with hm | hm
      · exact .inl (by rw [List.foldl_cons, h, hm])
      · exact .inr (by rw [List.foldl_cons, h, hm]; exact List.mem_cons_self b rest)
    · exact .inr (List.mem_cons_of_mem b h)

lemma mapM_ok_congr {ε α β : Type} :
    ∀ (l : List α) (f : α → Except ε β) (g : α → β),
      (∀ a ∈ l, f a = .ok (g a)) →
      l.mapM f = .ok (l.map g) := by
  intro l
  induction l with
  | nil => intro f g _; rfl
  | cons a rest ih =>
    intro f g h
    rw [List.mapM_cons, h a (List.mem_cons_self a rest), except_bind_ok,
      ih f g (fun a' ha' => h a' (List.mem_cons_of_mem _ ha')),
      except_bind_ok]
    rfl

lemma featurizeStates_some (f : SingleStateF)
    (pad : List (Option State) → List (Option State))
    (tas : List (List (Option State))) :
    featurizeStates pad (some f) tas =
      .ok (tas.map (fun ts =>
             (if tas.length > 1 then pad ts else ts).map f.encode),
           tas.map List.length) := by
  simp only [featurizeStates]
  have hinner : ∀ ts ∈ tas,
      (if tas.length > 1 then pad ts else ts).mapM
          (encodeDispatch (some f)) =
        .ok ((if tas.length > 1 then pad ts else ts).map f.encode) :=
    fun ts _ => mapM_ok_congr _ _ _ (fun s _ => rfl)
  rw [mapM_ok_congr tas _ _ hinner, except_bind_ok]

lemma padStates_length {α : Type} (M : Nat) (ts : List (Option α))
    (h : ts.length ≤ M) : (padStates M ts).length = M := by
  by_cases hlt : ts.length < M
  · simp only [padStates, hlt, if_pos, List.length_append,
      List.length_replicate]
    omega
  · simp only [padStates, hlt, if_false]
    omega

lemma emittedHashes_append (acc : MHAcc)
    (h' : List (List (Option (Multiset (String × ℚ))) × String))
    (w : List (Option State)) (n : String)
    (hlen : acc.statesAcc.length = acc.actionsAcc.length) :
    emittedHashes ⟨h', acc.statesAcc ++ [w], acc.actionsAcc ++ [[n]]⟩ =
      emittedHashes acc ++ [hashExample w n] := by
  simp only [emittedHashes, List.zip_append hlen, List.map_append]
  rfl

lemma mhEvents_dedup_inv (maxH : Nat) (states : List State) :
    ∀ (events : List Event) (idx : Nat) (acc : MHAcc),
      MHInv acc → MHInv (mhEvents maxH true states events idx acc) := by
  intro events
  induction events with
  | nil => intro idx acc hinv; exact hinv
  | cons e rest ih =>
    intro idx acc hinv
    match e with
    | .other => exact ih idx acc hinv
    | .actionExecuted n u =>
      cases u with
      | true =>
        simp only [mhEvents, if_pos]
        exact ih (idx + 1) acc hinv
      | false =>
        simp only [mhEvents, Bool.false_eq_true, if_false, if_true]
        by_cases hmem :
            hashExample (sliceStateHistory (states.take (idx + 1)) maxH) n
              ∈ acc.hashed
        · rw [if_pos hmem]
          exact ih (idx + 1) acc hinv
        · rw [if_neg hmem]
          refine ih (idx + 1) _ ⟨?_, ?_, ?_⟩
          · rw [emittedHashes_append _ _ _ _ hinv.lenEq, hinv.hashedEq]
          · simp [hinv.lenEq]
          · rw [List.nodup_append]
            refine ⟨hinv.nodup, List.nodup_singleton _, ?_⟩
            intro a ha hb
            rcases List.mem_singleton.mp hb with rfl
            exact hmem ha

lemma mhFoldl_dedup_inv (uip : Bool) (maxH : Nat) :
    ∀ (trackers : List Tracker) (acc : MHAcc),
      MHInv acc →
      MHInv (trackers.foldl
        (fun acc t =>
          mhEvents maxH true
            (createStates uip true t.pastStates) t.appliedEvents 0 acc)
        acc) := by
  intro trackers
  induction trackers with
  | nil => intro acc hinv; exact hinv
  | cons t rest ih =>
    intro acc hinv
    rw [List.foldl_cons]
    exact ih _ (mhEvents_dedup_inv _ _ _ _ _ hinv)

lemma mhEvents_false_lenEq (maxH : Nat) (states : List State) :
    ∀ (events : List Event) (idx : Nat) (acc : MHAcc),
      acc.statesAcc.length = acc.actionsAcc.length →
      (mhEvents maxH false states events idx acc).statesAcc.length =
        (mhEvents maxH false states events idx acc).actionsAcc.length := by
  intro events
  induction events with
  | nil => intro idx acc h; exact h
  | cons e rest ih =>
    intro idx acc h
    match e with
    | .other => exact ih idx acc h
    | .actionExecuted n u =>
      cases u with
      | true =>
        simp only [mhEvents, if_pos]
        exact ih (idx + 1) acc h
      | false =>
        simp only [mhEvents, Bool.false_eq_true, if_false]
        exact ih (idx + 1) _ (by simp [h])

lemma mhEvents_false_hashes_sub (maxH : Nat) (states : List State) :
    ∀ (events : List Event) (idx : Nat) (acc₁ acc₂ : MHAcc),
      acc₁.statesAcc.length = acc₁.actionsAcc.length →
      (∀ h ∈ emittedHashes acc₁, h ∈ acc₂.hashed) →
      ∀ h ∈ emittedHashes (mhEvents maxH false states events idx acc₁),
        h ∈ (mhEvents maxH true states events idx acc₂).hashed := by
  intro events
  induction events with
  | nil => intro idx acc₁ acc₂ _ hsub; exact hsub
  | cons e rest ih =>
    intro idx acc₁ acc₂ hlen hsub
    match e with
    | .other => exact ih idx acc₁ acc₂ hlen hsub
    | .actionExecuted n u =>
      cases u with
      | true =>
        simp only [mhEvents, if_pos]
        exact ih (idx + 1) acc₁ acc₂ hlen hsub
      | false =>
        simp only [mhEvents, Bool.false_eq_true, if_false, if_true]
        set w := sliceStateHistory (states.take (idx + 1)) maxH with hw
        by_cases hmem : hashExample w n ∈ acc₂.hashed
        · rw [if_pos hmem]
          refine ih (idx + 1) _ acc₂ (by simp [hlen]) ?_
          intro h hh
          rw [emittedHashes_append _ _ _ _ hlen] at hh
          rcases List.mem_append.mp hh with hh | hh
          · exact hsub h hh
          · rcases List.mem_singleton.mp hh with rfl
            exact hmem
        · rw [if_neg hmem]
          refine ih (idx + 1) _ _ (by simp [hlen]) ?_
          intro h hh
          rw [emittedHashes_append _ _ _ _ hlen] at hh
          rcases List.mem_append.mp hh with hh | hh
          · exact List.mem_append_left _ (hsub h hh)
          · rcases List.mem_singleton.mp hh with rfl
            exact List.mem_append_right _ (List.mem_singleton_self _)

lemma mhFoldl_false_hashes_sub (uip : Bool) (maxH : Nat) :
    ∀ (trackers : List Tracker) (acc₁ acc₂ : MHAcc),
      acc₁.statesAcc.length = acc₁.actionsAcc.length →
      (∀ h ∈ emittedHashes acc₁, h ∈ acc₂.hashed) →
      ∀ h ∈ emittedHashes (trackers.foldl
          (fun acc t =>
            mhEvents maxH false
              (createStates uip true t.pastStates) t.appliedEvents 0 acc)
          acc₁),
        h ∈ (trackers.foldl
          (fun acc t =>
            mhEvents maxH true
              (createStates uip true t.pastStates) t.appliedEvents 0 acc)
          acc₂).hashed := by
  intro trackers
  induction trackers with
  | nil => intro acc₁ acc₂ _ hsub; exact hsub
  | cons t rest ih =>
    intro acc₁ acc₂ hlen hsub
    rw [List.foldl_cons, List.foldl_cons]
    exact ih _ _ (mhEvents_false_lenEq _ _ _ _ _ hlen)
      (mhEvents_false_hashes_sub _ _ _ _ _ _ hlen hsub)

lemma ppTurn_snd (prev : Option String) (turn : Option State) :
    (ppTurn prev turn).2 = keptUpdate prev turn := by
  match turn with
  | none => rfl
  | some s =>
    simp only [ppTurn, keptUpdate]
    by_cases hE : s.isEmpty
    · rw [if_pos hE, if_pos hE]
    · rw [if_neg hE, if_neg hE]
      match hk : firstIntentKey s with
      | none => rfl
      | some k =>
        show (if some k = prev
              then ((some (dictDel s k) : Option State), prev)
              else (some s, some k)).2 = some k
        by_cases hkp : some k = prev
        · rw [if_pos hkp]; exact hkp.symm
        · rw [if_neg hkp]

lemma ppSeq_length_eq :
    ∀ (seq : List (Option State)) (prev : Option String),
      (ppSeq prev seq).length = seq.length := by
  intro seq
  induction seq with
  | nil => intro prev; rfl
  | cons t rest ih =>
    intro prev
    simp only [ppSeq, List.length_cons, ih]

lemma ppSeq_getElem? :
    ∀ (seq : List (Option State)) (prev : Option String) (j : Nat),
      (ppSeq prev seq)[j]? =
        (seq[j]?).map
          (fun t => (ppTurn (lastSeenIntent prev (seq.take j)) t).1) := by
  intro seq
  induction seq with
  | nil => intro prev j; simp [ppSeq]
  | cons t rest ih =>
    intro prev j
    match j with
    | 0 => simp [ppSeq, lastSeenIntent]
    | j + 1 =>
      have hcons : ppSeq prev (t :: rest) =
          (ppTurn prev t).1 :: ppSeq (ppTurn prev t).2 rest := rfl
      rw [hcons, List.getElem?_cons_succ, ih (ppTurn prev t).2 j,
        List.getElem?_cons_succ, List.take_succ_cons, ppTurn_snd]
      rfl

lemma intentLoop_snd :
    ∀ (l : List (String × ℚ)) (b : State) (best : Option String) (bp : ℚ),
      (intentLoop l b best bp).2 = (runBest l best bp).1 := by
  intro l
  induction l with
  | nil => intro b best bp; rfl
  | cons p rest ih =>
    intro b best bp
    simp only [intentLoop, runBest]
    by_cases hI : isIntentKey p.1
    · rw [if_pos hI, if_pos hI]
      by_cases hlt : bp < p.2
      · rw [if_pos hlt, if_pos hlt, ih]
      · rw [if_neg hlt, if_neg hlt, ih]
    · rw [if_neg hI, if_neg hI, ih]

lemma runBest_eq_runBestI :
    ∀ (l : List (String × ℚ)) (best : Option String) (bp : ℚ),
      runBest l best bp = runBestI (intentEntries l) best bp := by
  intro l
  induction l with
  | nil => intro best bp; rfl
  | cons p rest ih =>
    intro best bp
    simp only [runBest, intentEntries, List.filter_cons]
    by_cases hI : isIntentKey p.1
    · simp only [hI, if_pos, if_true]
      by_cases hlt : bp < p.2
      · rw [if_pos hlt]
        simp only [runBestI, if_pos hlt]
        exact ih (some p.1) p.2
      · rw [if_neg hlt]
        simp only [runBestI, if_neg hlt]
        exact ih best bp
    · simp only [hI, Bool.false_eq_true, if_false]
      exact ih best bp

lemma runBestI_cases :
    ∀ (l : List (String × ℚ)) (best : Option String) (bp : ℚ),
      (runBestI l best bp).1 = best
      ∨ ∃ p ∈ l, (runBestI l best bp).1 = some p.1 := by
  intro l
  induction l with
  | nil => intro best bp; exact .inl rfl
  | cons p rest ih =>
    intro best bp
    simp only [runBestI]
    by_cases hlt : bp < p.2
    · rw [if_pos hlt]
      rcases ih (some p.1) p.2 with h | ⟨q, hq, h⟩
      · exact .inr ⟨p, List.mem_cons_self p rest, h⟩
      · exact .inr ⟨q, List.mem_cons_of_mem p hq, h⟩
    · rw [if_neg hlt]
      rcases ih best bp with h | ⟨q, hq, h⟩
      · exact .inl h
      · exact .inr ⟨q, List.mem_cons_of_mem p hq, h⟩

lemma runBestI_no_improve :
    ∀ (l : List (String × ℚ)) (best : Option String) (bp : ℚ),
      (∀ p ∈ l, p.2 ≤ bp) → runBestI l best bp = (best, bp) := by
  intro l
  induction l with
  | nil => intro best bp _; rfl
  | cons p rest ih =>
    intro best bp h
    simp only [runBestI]
    rw [if_neg (not_lt.mpr (h p (List.mem_cons_self p rest)))]
    exact ih best bp (fun q hq => h q (List.mem_cons_of_mem p hq))

lemma runBestI_first_max (k : String) (w : ℚ)
    (post : List (String × ℚ)) :
    ∀ (pre : List (String × ℚ)) (best : Option String) (bp : ℚ),
      bp < w → (∀ p ∈ pre, p.2 < w) →
      runBestI (pre ++ (k, w) :: post) best bp =
        runBestI post (some k) w := by
  intro pre
  induction pre with
  | nil =>
    intro best bp hbp _
    simp only [List.nil_append, runBestI]
    rw [if_pos hbp]
  | cons q pre' ih =>
    intro best bp hbp hpre
    simp only [List.cons_append, runBestI]
    by_cases hlt : bp < q.2
    · rw [if_pos hlt]
      exact ih (some q.1) q.2 (hpre q (List.mem_cons_self q pre'))
        (fun p hp => hpre p (List.mem_cons_of_mem q hp))
    · rw [if_neg hlt]
      exact ih best bp hbp
        (fun p hp => hpre p (List.mem_cons_of_mem q hp))

lemma dictSet_not_mem (d : State) (k : String) (v : ℚ)
    (h : ∀ p ∈ d, p.1 ≠ k) : dictSet d k v = d ++ [(k, v)] := by
  simp only [dictSet]
  rw [if_neg]
  simp only [List.any_eq_true, not_exists]
  intro p
  simp only [not_and, beq_iff_eq]
  exact fun hp => h p hp

lemma dictOf_eq_self :
    ∀ (s : List (String × ℚ)), (s.map Prod.fst).Nodup → dictOf s = s := by
  have key : ∀ (s acc : List (String × ℚ)),
      ((acc ++ s).map Prod.fst).Nodup →
      s.foldl (fun d p => dictSet d p.1 p.2) acc = acc ++ s := by
    intro s
    induction s with
    | nil => intro acc _; simp
    | cons p rest ih =>
      intro acc h
      rw [List.foldl_cons, dictSet_not_mem]
      · have := ih (acc ++ [p]) (by simpa using h)
        rw [this]
        simp
      · intro q hq hqp
        have h' : (acc.map Prod.fst ++ (p :: rest).map Prod.fst).Nodup := by
          rwa [← List.map_append]
        exact List.disjoint_of_nodup_append h'
          (List.mem_map_of_mem Prod.fst hq)
          (by rw [List.map_cons, hqp]; exact List.mem_cons_self p.1 _)
  intro s h
  exact key s [] (by simpa using h)

lemma intentKeys_nil : intentKeys [] = [] := rfl

lemma intentKeys_cons_pos (p : String × ℚ) (rest : List (String × ℚ))
    (h : isIntentKey p.1 = true) :
    intentKeys (p :: rest) = p.1 :: intentKeys rest := by
  simp [intentKeys, intentEntries, List.filter_cons, h]

lemma intentKeys_cons_neg (p : String × ℚ) (rest : List (String × ℚ))
    (h : isIntentKey p.1 = false) :
    intentKeys (p :: rest) = intentKeys rest := by
  simp [intentKeys, intentEntries, List.filter_cons, h]

lemma runBest_fst_cases (l : List (String × ℚ)) (best : Option String)
    (bp : ℚ) :
    (runBest l best bp).1 = best
    ∨ ∃ k ∈ intentKeys l, (runBest l best bp).1 = some k := by
  rw [runBest_eq_runBestI]
  rcases runBestI_cases (intentEntries l) best bp with h | ⟨p, hp, h⟩
  · exact .inl h
  · exact .inr ⟨p.1, List.mem_map_of_mem Prod.fst hp, h⟩

lemma keepKey_notIntent (bestStart finalBest : Option String)
    (lkeys : List String) (k : String) (h : isIntentKey k = false) :
    keepKey bestStart finalBest lkeys k = true := by
  simp [keepKey, h]

lemma keepKey_new_best_none (finalBest : Option String) (K : List String)
    (k₁ k : String) :
    keepKey none finalBest (k₁ :: K) k = keepKey (some k₁) finalBest K k := by
  by_cases hIk : isIntentKey k
  · by_cases hk : k = k₁
    · subst hk
      simp [keepKey, hIk]
    · simp [keepKey, hIk, hk, Ne.symm hk, List.mem_cons]
  · simp at hIk
    simp [keepKey, hIk]

lemma keepKey_new_best_some (finalBest : Option String) (K : List String)
    (k₀ k₁ k : String) (hI₀ : isIntentKey k₀ = true) (hne : k₀ ≠ k₁)
    (hF : finalBest ≠ some k₀) :
    keepKey (some k₀) finalBest (k₁ :: K) k =
      (keepKey (some k₁) finalBest K k && !(k == k₀)) := by
  by_cases hIk : isIntentKey k
  · by_cases hk₀ : k = k₀
    · subst hk₀
      have hne' : k ≠ k₁ := hne
      simp [keepKey, hIk, hF, Ne.symm hne']
    · by_cases hk₁ : k = k₁
      · subst hk₁
        simp [keepKey, hIk, Ne.symm hk₀, hk₀, List.mem_cons]
      · simp [keepKey, hIk, hk₀, Ne.symm hk₀, hk₁, Ne.symm hk₁,
          List.mem_cons]
  · have hkne : k ≠ k₀ := by
      intro h
      rw [h] at hIk
      exact hIk hI₀
    simp at hIk
    simp [keepKey, hIk, hkne]

lemma keepKey_no_improve (bestStart finalBest : Option String)
    (K : List String) (k₁ k : String) (hI₁ : isIntentKey k₁ = true)
    (hb : bestStart ≠ some k₁) (hF : finalBest ≠ some k₁) :
    keepKey bestStart finalBest (k₁ :: K) k =
      (keepKey bestStart finalBest K k && !(k == k₁)) := by
  by_cases hIk : isIntentKey k
  · by_cases hk₁ : k = k₁
    · subst hk₁
      simp [keepKey, hIk, hb, hF]
    · by_cases hbs : bestStart = some k
      · simp [keepKey, hIk, hbs, hk₁]
      · simp [keepKey, hIk, hbs, hk₁, List.mem_cons]
  · have hkne : k ≠ k₁ := by
      intro h
      rw [h] at hIk
      exact hIk hI₁
    simp at hIk
    simp [keepKey, hIk, hkne]

lemma intentLoop_fst :
    ∀ (l : List (String × ℚ)) (b : State) (best₀ : Option String) (bp : ℚ),
      (intentKeys l).Nodup →
      (∀ k₀, best₀ = some k₀ →
        isIntentKey k₀ = true ∧ k₀ ∉ intentKeys l) →
      (intentLoop l b best₀ bp).1 =
        b.filter (fun p =>
          keepKey best₀ (runBest l best₀ bp).1 (intentKeys l) p.1) := by
  intro l
  induction l with
  | nil =>
    intro b best₀ bp _ _
    symm
    apply List.filter_eq_self.mpr
    intro p _
    show keepKey best₀ (runBest [] best₀ bp).1 (intentKeys []) p.1 = true
    by_cases hIk : isIntentKey p.1
    · by_cases hb : best₀ = some p.1
      · simp [keepKey, runBest, hIk, hb]
      · simp [keepKey, runBest, intentKeys_nil, hIk, hb]
    · simp at hIk
      simp [keepKey, hIk]
  | cons q rest ih =>
    intro b best₀ bp hnd hbest
    by_cases hI : isIntentKey q.1
    · rw [intentKeys_cons_pos q rest hI] at hnd hbest ⊢
      have hq1r : q.1 ∉ intentKeys rest := (List.nodup_cons.mp hnd).1
      have hndr : (intentKeys rest).Nodup := (List.nodup_cons.mp hnd).2
      by_cases hlt : bp < q.2
      · cases best₀ with
        | none =>
          have hloop : intentLoop (q :: rest) b none bp =
              intentLoop rest b (some q.1) q.2 := by
            simp [intentLoop, hI, hlt]
          have hrun : runBest (q :: rest) none bp =
              runBest rest (some q.1) q.2 := by
            simp [runBest, hI, hlt]
          rw [hloop, hrun,
            ih _ (some q.1) q.2 hndr
              (fun k₀ hk₀ => by
                cases Option.some_inj.mp hk₀
                exact ⟨hI, hq1r⟩)]
          exact List.filter_congr
            (fun p _ => (keepKey_new_best_none _ _ q.1 p.1).symm)
        | some k₀ =>
          have hloop : intentLoop (q :: rest) b (some k₀) bp =
              intentLoop rest (dictDel b k₀) (some q.1) q.2 := by
            simp [intentLoop, hI, hlt]
          have hrun : runBest (q :: rest) (some k₀) bp =
              runBest rest (some q.1) q.2 := by
            simp [runBest, hI, hlt]
          rcases hbest k₀ rfl with ⟨hI₀, hk₀mem⟩
          have hk₀ne : k₀ ≠ q.1 := fun h =>
            hk₀mem (h ▸ List.mem_cons_self q.1 (intentKeys rest))
          have hk₀K : k₀ ∉ intentKeys rest := fun h =>
            hk₀mem (List.mem_cons_of_mem q.1 h)
          have hF : (runBest rest (some q.1) q.2).1 ≠ some k₀ := by
            rcases runBest_fst_cases rest (some q.1) q.2 with h | ⟨k, hk, h⟩
            · rw [h]
              intro hc
              exact hk₀ne (Option.some_inj.mp hc).symm
            · rw [h]
              intro hc
              rw [Option.some_inj.mp hc] at hk
              exact hk₀K hk
          rw [hloop, hrun,
            ih _ (some q.1) q.2 hndr
              (fun k hk => by
                cases Option.some_inj.mp hk
                exact ⟨hI, hq1r⟩)]
          simp only [dictDel, List.filter_filter]
          refine (List.filter_congr (fun p _ => ?_)).symm
          exact keepKey_new_best_some _ _ k₀ q.1 p.1 hI₀ hk₀ne hF
      · have hloop : intentLoop (q :: rest) b best₀ bp =
            intentLoop rest (dictDel b q.1) best₀ bp := by
          simp [intentLoop, hI, hlt]
        have hrun : runBest (q :: rest) best₀ bp =
            runBest rest best₀ bp := by
          simp [runBest, hI, hlt]
        rw [hloop, hrun,
          ih _ best₀ bp hndr
            (fun k₀ hk₀ => ⟨(hbest k₀ hk₀).1,
              fun h => (hbest k₀ hk₀).2 (List.mem_cons_of_mem q.1 h)⟩)]
        have hb : best₀ ≠ some q.1 := by
          intro h
          rcases hbest q.1 h with ⟨_, hmem⟩
          exact hmem (List.mem_cons_self q.1 (intentKeys rest))
        have hF : (runBest rest best₀ bp).1 ≠ some q.1 := by
          rcases runBest_fst_cases rest best₀ bp with h | ⟨k, hk, h⟩
          · rw [h]; exact hb
          · rw [h]
            intro hc
            rw [Option.some_inj.mp hc] at hk
            exact hq1r hk
        simp only [dictDel, List.filter_filter]
        refine (List.filter_congr (fun p _ => ?_)).symm
        exact keepKey_no_improve best₀ _ _ q.1 p.1 hI hb hF
    · have hIf : isIntentKey q.1 = false := by simpa using hI
      have hloop : intentLoop (q :: rest) b best₀ bp =
          intentLoop rest b best₀ bp := by
        simp [intentLoop, hIf]
      have hrun : runBest (q :: rest) best₀ bp = runBest rest best₀ bp := by
        simp [runBest, hIf]
      rw [intentKeys_cons_neg q rest hIf] at hnd hbest ⊢
      rw [hloop, hrun]
      exact ih b best₀ bp hnd hbest

lemma intentKeys_nodup (s : List (String × ℚ))
    (hnd : (s.map Prod.fst).Nodup) : (intentKeys s).Nodup := by
  have hsub : List.Sublist (intentKeys s) (s.map Prod.fst) :=
    List.Sublist.map Prod.fst (List.filter_sublist s)
  exact List.Nodup.sublist hsub hnd

lemma mem_intentKeys_of_mem {s : List (String × ℚ)} {p : String × ℚ}
    (hp : p ∈ s) (hI : isIntentKey p.1 = true) : p.1 ∈ intentKeys s :=
  List.mem_map_of_mem Prod.fst (List.mem_filter.mpr ⟨hp, hI⟩)

lemma binState_top (s : List (String × ℚ))
    (hnd : (s.map Prod.fst).Nodup) :
    (intentLoop s (dictOf s) none (-1)).1 =
      s.filter (fun p =>
        !isIntentKey p.1 || decide ((runBest s none (-1)).1 = some p.1)) := by
  rw [intentLoop_fst s (dictOf s) none (-1) (intentKeys_nodup s hnd)
    (fun k₀ h => by cases h), dictOf_eq_self s hnd]
  refine List.filter_congr (fun p hp => ?_)
  by_cases hI : isIntentKey p.1
  · have hmem := mem_intentKeys_of_mem hp hI
    simp [keepKey, hI, hmem]
  · simp at hI
    simp [keepKey, hI]

lemma runBest_decomp (s pre post : List (String × ℚ)) (k : String) (w : ℚ)
    (hdecomp : intentEntries s = pre ++ (k, w) :: post)
    (hpre : ∀ p ∈ pre, p.2 < w) (hpost : ∀ p ∈ post, p.2 ≤ w)
    (hw : -1 < w) :
    (runBest s none (-1)).1 = some k := by
  rw [runBest_eq_runBestI, hdecomp,
    runBestI_first_max k w post pre none (-1) hw hpre,
    runBestI_no_improve post (some k) w hpost]

lemma runBest_none_of_all_le (s : List (String × ℚ))
    (h : ∀ p ∈ intentEntries s, p.2 ≤ -1) :
    (runBest s none (-1)).1 = none := by
  rw [runBest_eq_runBestI, runBestI_no_improve (intentEntries s) none (-1) h]

lemma filter_key_unique :
    ∀ (s : List (String × ℚ)) (k : String) (w : ℚ),
      (s.map Prod.fst).Nodup → (k, w) ∈ s →
      s.filter (fun p => p.1 == k) = [(k, w)] := by
  intro s
  induction s with
  | nil => intro k w _ h; simp at h
  | cons q rest ih =>
    intro k w hnd hmem
    rw [List.map_cons] at hnd
    have hnd' := List.nodup_cons.mp hnd
    rcases List.mem_cons.mp hmem with rfl | hmem'
    · rw [List.filter_cons]
      simp only [beq_self_eq_true, if_pos]
      have : rest.filter (fun p => p.1 == k) = [] := by
        rw [List.filter_eq_nil_iff]
        intro p hp hbeq
        rw [beq_iff_eq] at hbeq
        exact hnd'.1 (List.mem_map.mpr ⟨p, hp, hbeq⟩)
      rw [this]
    · have hq : (q.1 == k) = false := by
        rw [beq_eq_false_iff_ne]
        intro h
        exact hnd'.1 (h ▸ List.mem_map_of_mem Prod.fst hmem')
      rw [List.filter_cons, hq]
      simp only [Bool.false_eq_true, if_false]
      exact ih k w hnd'.2 hmem'

lemma binarizeState_some (s : List (String × ℚ))
    (hnd : (s.map Prod.fst).Nodup) (k : String)
    (hF : (runBest s none (-1)).1 = some k) :
    binarizeState s =
      dictSet (s.filter (fun p =>
        !isIntentKey p.1 || decide (k = p.1))) k 1 := by
  unfold binarizeState
  simp only [intentLoop_snd, binState_top s hnd, hF, Option.some.injEq]

lemma binarizeState_none (s : List (String × ℚ))
    (hnd : (s.map Prod.fst).Nodup)
    (hF : (runBest s none (-1)).1 = none) :
    binarizeState s = s.filter (fun p => !isIntentKey p.1) := by
  unfold binarizeState
  simp only [intentLoop_snd, binState_top s hnd, hF]
  refine List.filter_congr (fun p hp => ?_)
  simp

lemma mapM_error_msg {ε α β : Type} (m : ε) :
    ∀ (l : List α) (f : α → Except ε β),
      (∀ a ∈ l, ∀ e, f a = .error e → e = m) →
      ∀ e, l.mapM f = .error e → e = m := by
  intro l
  induction l with
  | nil =>
    intro f _ e h
    rw [List.mapM_nil] at h
    cases h
  | cons a rest ih =>
    intro f hall e h
    rw [List.mapM_cons] at h
    cases hfa : f a with
    | error e' =>
      rw [hfa, except_bind_err] at h
      injection h with h'
      exact h' ▸ hall a (List.mem_cons_self a rest) e' hfa
    | ok b =>
      rw [hfa, except_bind_ok] at h
      cases hr : rest.mapM f with
      | error e'' =>
        rw [hr, except_bind_err] at h
        injection h with h'
        exact h' ▸
          ih f (fun a' ha' => hall a' (List.mem_cons_of_mem a ha')) e'' hr
      | ok xs =>
        rw [hr, except_bind_ok] at h
        cases h

lemma featurizeStates_error_msg
    (pad : List (Option State) → List (Option State))
    (sf : Option SingleStateF) (tas : List (List (Option State))) :
    ∀ e, featurizeStates pad sf tas = .error e →
      e = attributeErrorMsg := by
  intro e h
  simp only [featurizeStates] at h
  cases hm : tas.mapM (fun trackerStates =>
      (if tas.length > 1 then pad trackerStates
       else trackerStates).mapM (encodeDispatch sf)) with
  | error e' =>
    rw [hm, except_bind_err] at h
    injection h with h'
    refine h' ▸ mapM_error_msg attributeErrorMsg tas _ ?_ e' hm
    intro ts _ e'' hts
    refine mapM_error_msg attributeErrorMsg _ _ ?_ e'' hts
    intro st _ e''' hst
    cases sf with
    | none =>
      simp only [encodeDispatch] at hst
      injection hst with h''
      exact h''.symm
    | some f => cases hst
  | ok v =>
    rw [hm, except_bind_ok] at h
    cases h

/-! ## Claim theorems -/

/-- C2: `slice_state_history` always returns a window of length exactly
`slice_length`, left-padding shorter histories with `None` and keeping
only the most recent `slice_length` states of longer ones; consequently
every window emitted by the max-history variant's training and
prediction paths has length exactly `max_history`. -/
theorem sliceStateHistory_window_length :
    ∀ (states : List State) (sliceLength : Nat),
      (sliceStateHistory states sliceLength).length = sliceLength
      ∧ (states.length ≤ sliceLength →
          sliceStateHistory states sliceLength =
            List.replicate (sliceLength - states.length) none ++
              states.map some)
      ∧ (sliceLength ≤ states.length →
          sliceStateHistory states sliceLength =
            (states.drop (states.length - sliceLength)).map some)
      ∧ (∀ (uip rd : Bool) (trackers : List Tracker)
            (w : List (Option State)),
            w ∈ (mhTrainingStatesAndActions uip sliceLength rd
                   trackers).1 →
            w.length = sliceLength)
      ∧ (∀ (uip : Bool) (trackers : List Tracker)
            (w : List (Option State)),
            w ∈ mhPredictionStates uip sliceLength trackers →
            w.length = sliceLength) := by
  intro states sliceLength
  refine ⟨sliceStateHistory_length states sliceLength, ?_, ?_, ?_, ?_⟩
  · intro h
    have hz : states.length - sliceLength = 0 := by omega
    simp [sliceStateHistory, hz]
  · intro h
    have hz : sliceLength - states.length = 0 := by omega
    simp [sliceStateHistory, hz]
  · intro uip rd trackers w hw
    exact mhFoldl_statesAcc_length uip sliceLength rd trackers
      ⟨[], [], []⟩ (by intro w' hw'; simp at hw') w hw
  · intro uip trackers w hw
    rcases List.mem_map.mp hw with ⟨t, _, rfl⟩
    exact sliceStateHistory_length _ _

/-- C2 witness: the theorem instantiated at a one-state history and
window length 3, and at the concrete two-tracker max-history batch. -/
theorem sliceStateHistory_window_length_witness :
    (sliceStateHistory [[("a", 1)]] 3).length = 3
    ∧ sliceStateHistory [[("a", 1)]] 3 =
        [none, none, some [("a", 1)]]
    ∧ ([some [("intent_hi", 1)],
        some [("intent_hi", 1), ("prev_listen", 1)]] :
          List (Option State)).length = 2 := by
  refine ⟨(sliceStateHistory_window_length [[("a", 1)]] 3).1, ?_, ?_⟩
  · have h := (sliceStateHistory_window_length [[("a", 1)]] 3).2.1
      (by decide)
    rw [h]; decide
  · refine (sliceStateHistory_window_length [] 2).2.2.2.1 false true
      [sampleTracker, sampleTracker] _ ?_
    decide

/-- C7: `encode(None)` is the all-`-1` sentinel of the calibrated
vocabulary length; `action_as_one_hot(None, domain)` is the all-`-1`
sentinel of length `num_actions`; and for a known action name with an
in-range index, `action_as_one_hot` yields a vector of length
`num_actions` with a single `1` at `index_for_action(name)` and `0`
everywhere else. -/
theorem encode_none_sentinel_and_one_hot :
    ∀ (f : SingleStateF),
      f.encode none = List.replicate f.vocab.length (-1)
      ∧ (∀ x ∈ f.encode none, x = (-1 : Int))
      ∧ (∀ d : Domain,
          actionAsOneHot none d = .ok (List.replicate d.numActions (-1)))
      ∧ (∀ (d : Domain) (a : String) (i : Nat),
          d.indexForAction a = some i → i < d.numActions →
          ∃ v : List Int,
            actionAsOneHot (some a) d = .ok v
            ∧ v.length = d.numActions
            ∧ v[i]? = some 1
            ∧ ∀ j, j < d.numActions → j ≠ i → v[j]? = some 0) := by
  intro f
  refine ⟨rfl, ?_, fun d => rfl, ?_⟩
  · intro x hx
    simp only [SingleStateF.encode] at hx
    exact List.eq_of_mem_replicate hx
  · intro d a i hidx hlt
    refine ⟨(List.replicate d.numActions (0 : Int)).set i 1, ?_, ?_, ?_, ?_⟩
    · simp [actionAsOneHot, hidx, hlt]
    · simp
    · rw [List.getElem?_set_self (by simpa using hlt)]
    · intro j hj hne
      rw [List.getElem?_set_ne (fun h => hne h.symm)]
      simp [hj]

/-- C7 witness: the theorem instantiated at a concrete featurizer with a
two-word vocabulary and a concrete three-action domain. -/
theorem encode_none_sentinel_and_one_hot_witness :
    (SingleStateF.encode ⟨true, ["hello", "bye"], fun _ => []⟩ none =
        [-1, -1])
    ∧ actionAsOneHot none ⟨3, fun _ => none, []⟩ =
        .ok [-1, -1, -1]
    ∧ ∃ v : List Int,
        actionAsOneHot (some "utter_hi")
          ⟨3, fun a => if a = "utter_hi" then some 1 else none, []⟩ =
          .ok v
        ∧ v.length = 3 ∧ v[1]? = some 1
        ∧ ∀ j, j < 3 → j ≠ 1 → v[j]? = some 0 := by
  refine ⟨?_, ?_, ?_⟩
  · have h := (encode_none_sentinel_and_one_hot
      ⟨true, ["hello", "bye"], fun _ => []⟩).1
    rw [h]; decide
  · have h := (encode_none_sentinel_and_one_hot
      ⟨true, [], fun _ => []⟩).2.2.1 ⟨3, fun _ => none, []⟩
    rw [h]; rfl
  · exact (encode_none_sentinel_and_one_hot
      ⟨true, [], fun _ => []⟩).2.2.2
      ⟨3, fun a => if a = "utter_hi" then some 1 else none, []⟩
      "utter_hi" 1 (by simp) (by decide)

/-- C8: `TrackerFeaturizer.load` never raises: it returns an explicit
`None` when the featurizer file does not exist under the given path, and
the deserialized featurizer when it does. -/
theorem load_missing_file_not_fatal :
    ∀ (F : Type) (decode : String → F) (fs : FileSystem) (path : String),
      (∃ r, trackerFeaturizerLoad F decode fs path = .ok r)
      ∧ (isFile fs (featurizerFileName path) = false →
          trackerFeaturizerLoad F decode fs path = .ok none)
      ∧ (∀ contents,
          List.lookup (featurizerFileName path) fs = some contents →
          trackerFeaturizerLoad F decode fs path =
            .ok (some (decode contents))) := by
  intro F decode fs path
  refine ⟨?_, ?_, ?_⟩
  · by_cases h : isFile fs (featurizerFileName path)
    · rcases Option.isSome_iff_exists.mp h with ⟨c, hc⟩
      refine ⟨some (decode c), ?_⟩
      simp only [trackerFeaturizerLoad, isFile, hc, Option.isSome_some,
        if_true, readFile]
      rfl
    · exact ⟨none, by simp [trackerFeaturizerLoad, h]⟩
  · intro h
    simp [trackerFeaturizerLoad, h]
  · intro contents hc
    simp only [trackerFeaturizerLoad, isFile, hc, Option.isSome_some,
      if_true, readFile]
    rfl

/-- C8 witness: the theorem instantiated at a concrete file system that
misses the featurizer file for one path and holds it for another. -/
theorem load_missing_file_not_fatal_witness :
    trackerFeaturizerLoad Nat String.length
      [("model/featurizer.json", "data")] "other" = .ok none
    ∧ trackerFeaturizerLoad Nat String.length
        [("model/featurizer.json", "data")] "model" = .ok (some 4) := by
  constructor
  · exact (load_missing_file_not_fatal Nat String.length
      [("model/featurizer.json", "data")] "other").2.1 (by decide)
  · exact (load_missing_file_not_fatal Nat String.length
      [("model/featurizer.json", "data")] "model").2.2 "data" (by decide)

/-- C3 counterexample: on a tracker with two unpredictable actions, the
max-history variant's `training_states_and_actions` returns normally
(an empty example set), silently skipping both actions instead of
aborting with a fatal error as the claim asserts for both variants. -/
theorem mh_two_unpredictable_does_not_abort :
    countUnpredictable twoUnpredTracker.appliedEvents = 2
    ∧ mhTrainingStatesAndActions false 5 true [twoUnpredTracker] =
        ([], []) := by
  constructor
  · decide
  · rfl

/-- C3 (amended): a tracker with two or more unpredictable actions makes
`FullDialogueTrackerFeaturizer.training_states_and_actions` abort the
whole batch with the fatal two-unpredictable-actions error, but
`MaxHistoryTrackerFeaturizer.training_states_and_actions` does not
abort: it silently skips unpredictable actions (a log of only
unpredictable actions emits no example and no error). -/
theorem two_unpredictable_full_aborts_mh_skips :
    (∀ (uip : Bool) (trackers : List Tracker),
        (∃ t ∈ trackers, 2 ≤ countUnpredictable t.appliedEvents) →
        fullTrainingStatesAndActions uip trackers =
          .error twoUnpredictableMsg)
    ∧ (∀ (uip : Bool) (maxH : Nat) (rd : Bool) (t : Tracker),
        (∀ e ∈ t.appliedEvents, ∃ n, e = .actionExecuted n true) →
        mhTrainingStatesAndActions uip maxH rd [t] = ([], [])) := by
  constructor
  · exact fullTraining_error_of_two
  · intro uip maxH rd t h
    simp only [mhTrainingStatesAndActions, List.foldl_cons, List.foldl_nil]
    rw [mhEvents_all_unpred t.appliedEvents h]

/-- C3 witness: the amended theorem instantiated at the concrete
two-unpredictable tracker. -/
theorem two_unpredictable_full_aborts_mh_skips_witness :
    fullTrainingStatesAndActions false [twoUnpredTracker] =
      .error twoUnpredictableMsg
    ∧ mhTrainingStatesAndActions false 5 true [twoUnpredTracker] =
        ([], []) := by
  constructor
  · exact two_unpredictable_full_aborts_mh_skips.1 false [twoUnpredTracker]
      ⟨twoUnpredTracker, by decide, by decide⟩
  · refine two_unpredictable_full_aborts_mh_skips.2 false 5 true
      twoUnpredTracker ?_
    intro e he
    rcases List.mem_cons.mp he with rfl | he
    · exact ⟨"action_listen", rfl⟩
    rcases List.mem_cons.mp he with rfl | he
    · exact ⟨"action_restart", rfl⟩
    · simp at he

/-- C6: under the full-dialogue variant, a tracker whose first action is
unpredictable and which has no second unpredictable action has its
leading state dropped; the final state is dropped for every (accepted)
tracker; and the emitted action list is exactly the names of the
non-unpredictable executed actions in event order. -/
theorem full_training_drops_leading_and_final_state :
    ∀ (uip : Bool) (t : Tracker),
      (countUnpredictable t.appliedEvents = 0 →
        processTrackerFull uip t =
          .ok ((createStates uip true t.pastStates).dropLast.map some,
               predictableActionNames t.appliedEvents))
      ∧ (countUnpredictable t.appliedEvents = 1 →
        processTrackerFull uip t =
          .ok (((createStates uip true t.pastStates).drop 1).dropLast.map
                 some,
               predictableActionNames t.appliedEvents))
      ∧ (∀ n, firstActionExecuted t.appliedEvents = some (n, true) →
          countUnpredictable t.appliedEvents ≤ 1 →
          processTrackerFull uip t =
            .ok (((createStates uip true t.pastStates).drop 1).dropLast.map
                   some,
                 predictableActionNames t.appliedEvents)) := by
  intro uip t
  refine ⟨processTrackerFull_zero uip t, processTrackerFull_one uip t, ?_⟩
  intro n hfirst hle
  have h1 := one_le_count_of_firstAction_unpred t.appliedEvents n hfirst
  exact processTrackerFull_one uip t (by omega)

/-- C6 witness: the theorem instantiated at the sample tracker, whose
first action is its single unpredictable one. -/
theorem full_training_drops_leading_and_final_state_witness :
    processTrackerFull false sampleTracker =
      .ok ([some [("intent_hi", 1), ("prev_listen", 1)]],
           ["utter_hi", "utter_bye"]) := by
  have h := (full_training_drops_leading_and_final_state false
    sampleTracker).2.2 "action_listen" (by decide) (by decide)
  rw [h]
  rfl

/-- C5: `max_len` returned by the full-dialogue
`training_states_and_actions` is `calculate_max_len` of the emitted
action lists, which is exactly the maximum action-list length of the
batch; `_pad_states` extends any shorter sequence with trailing `None`
entries up to `max_len`; and in a batch of more than one dialogue whose
state sequences are at most `max_len` long, every encoded state sequence
has length exactly `max_len`. -/
theorem full_max_len_and_padding :
    (∀ (uip : Bool) (trackers : List Tracker)
       (tas : List (List (Option State))) (taa : List (List String))
       (ml : Option Nat),
       fullTrainingStatesAndActions uip trackers = .ok (tas, taa, ml) →
       ml = calculateMaxLen taa)
    ∧ (∀ (actionLists : List (List String)) (M : Nat),
        calculateMaxLen actionLists = some M →
        (∀ l ∈ actionLists, l.length ≤ M)
        ∧ ∃ l ∈ actionLists, l.length = M)
    ∧ (∀ (ts : List (Option State)) (M : Nat),
        ts.length < M →
        padStates M ts = ts ++ List.replicate (M - ts.length) none)
    ∧ (∀ (f : SingleStateF) (tas : List (List (Option State))) (M : Nat)
         (x : List (List (List Int))) (lens : List Nat),
        1 < tas.length →
        (∀ ts ∈ tas, ts.length ≤ M) →
        featurizeStates (padStates M) (some f) tas = .ok (x, lens) →
        ∀ row ∈ x, row.length = M) := by
  refine ⟨?_, ?_, ?_, ?_⟩
  · intro uip trackers tas taa ml h
    simp only [fullTrainingStatesAndActions] at h
    rcases hm : trackers.mapM (processTrackerFull uip) with e | pairs
    · rw [hm, except_bind_err] at h; cases h
    · rw [hm, except_bind_ok] at h
      injection h with h
      injection h with h1 h
      injection h with h2 h3
      rw [← h2, ← h3]
  · intro actionLists M h
    simp only [calculateMaxLen] at h
    by_cases hE : actionLists.isEmpty
    · rw [if_pos hE] at h; cases h
    · rw [if_neg hE, Option.some_inj] at h
      have hne : actionLists ≠ [] := by
        intro hnil; rw [hnil] at hE; exact hE rfl
      constructor
      · intro l hl
        rw [← h]
        exact (le_foldl_max _ 0).2 l.length (List.mem_map_of_mem _ hl)
      · rcases foldl_max_mem (actionLists.map List.length) 0 with h0 | hmem
        · rcases List.exists_mem_of_ne_nil actionLists hne with ⟨l, hl⟩
          refine ⟨l, hl, ?_⟩
          have hle := (le_foldl_max (actionLists.map List.length) 0).2
            l.length (List.mem_map_of_mem _ hl)
          omega
        · rcases List.mem_map.mp hmem with ⟨l, hl, hlen⟩
          exact ⟨l, hl, by rw [← h, hlen]⟩
  · intro ts M h
    simp only [padStates, h, if_pos]
  · intro f tas M x lens h1 hle hfeat
    rw [featurizeStates_some] at hfeat
    injection hfeat with hfeat
    injection hfeat with hx hlens
    intro row hrow
    rw [← hx] at hrow
    rcases List.mem_map.mp hrow with ⟨ts, hts, rfl⟩
    rw [if_pos h1, List.length_map]
    exact padStates_length M ts (hle ts hts)

/-- C5 witness: the theorem instantiated at the spec's `[3, 5, 2]`
example: `max_len = 5` and all three encoded sequences have length 5. -/
theorem full_max_len_and_padding_witness :
    (calculateMaxLen [["a", "b", "c"], ["a", "b", "c", "d", "e"],
        ["x", "y"]] = some 5)
    ∧ (∀ l ∈ [["a", "b", "c"], ["a", "b", "c", "d", "e"], ["x", "y"]],
        l.length ≤ 5)
    ∧ padStates 5 ([none, none, none] : List (Option State)) =
        [none, none, none, none, none]
    ∧ (∀ row ∈ [List.replicate 5 ([] : List Int),
                List.replicate 5 ([] : List Int),
                List.replicate 5 ([] : List Int)],
        row.length = 5) := by
  refine ⟨by decide, ?_, ?_, ?_⟩
  · exact (full_max_len_and_padding.2.1
      [["a", "b", "c"], ["a", "b", "c", "d", "e"], ["x", "y"]] 5
      (by decide)).1
  · have h := full_max_len_and_padding.2.2.1
      ([none, none, none] : List (Option State)) 5 (by decide)
    rw [h]; decide
  · have hfeat := full_max_len_and_padding.2.2.2
      ⟨true, [], fun _ => []⟩
      ([[none, none, none], [none, none, none, none, none], [none, none]] :
        List (List (Option State))) 5
      [List.replicate 5 ([] : List Int), List.replicate 5 ([] : List Int),
       List.replicate 5 ([] : List Int)]
      [3, 5, 2] (by decide) (by decide) (by rfl)
    exact hfeat

/-- C4: the example hash is insertion-order-insensitive — windows whose
entries are pairwise equal as key/value sets (`None` matching only
`None`) with the same label hash identically — and with
`remove_duplicates` the emitted examples of the max-history training loop
have pairwise distinct hashes, while every example the non-deduplicating
loop would emit (from any tracker of the batch) has its hash represented
among them: the same (window, label) pair contributes exactly one
training example. -/
theorem hash_example_dedup :
    (∀ (s₁ s₂ : List (Option State)) (a : String),
        List.Forall₂ (fun o₁ o₂ =>
          (o₁ = none ∧ o₂ = none)
          ∨ ∃ u v, o₁ = some u ∧ o₂ = some v ∧ u.Perm v) s₁ s₂ →
        hashExample s₁ a = hashExample s₂ a)
    ∧ (∀ (uip : Bool) (maxH : Nat) (trackers : List Tracker),
        (((mhTrainingStatesAndActions uip maxH true trackers).1.zip
            (mhTrainingStatesAndActions uip maxH true trackers).2).map
          exampleHash).Nodup)
    ∧ (∀ (uip : Bool) (maxH : Nat) (trackers : List Tracker)
          (p : List (Option State) × List String),
        p ∈ (mhTrainingStatesAndActions uip maxH false trackers).1.zip
              (mhTrainingStatesAndActions uip maxH false trackers).2 →
        exampleHash p ∈
          ((mhTrainingStatesAndActions uip maxH true trackers).1.zip
              (mhTrainingStatesAndActions uip maxH true trackers).2).map
            exampleHash) := by
  refine ⟨?_, ?_, ?_⟩
  · intro s₁ s₂ a hrel
    simp only [hashExample, Prod.mk.injEq, and_true]
    induction hrel with
    | nil => rfl
    | cons hpair _ ih =>
      simp only [List.map_cons, ih, and_true]
      rcases hpair with ⟨rfl, rfl⟩ | ⟨u, v, rfl, rfl, hperm⟩
      · rfl
      · have hm : Option.map (fun s => Multiset.ofList s) (some u) =
            Option.map (fun s => Multiset.ofList s) (some v) :=
          congrArg some (Multiset.coe_eq_coe.mpr hperm)
        rw [hm]
  · intro uip maxH trackers
    have hinv := mhFoldl_dedup_inv uip maxH trackers ⟨[], [], []⟩
      ⟨rfl, rfl, List.nodup_nil⟩
    have h := hinv.hashedEq
    have : (((mhTrainingStatesAndActions uip maxH true trackers).1.zip
        (mhTrainingStatesAndActions uip maxH true trackers).2).map
          exampleHash) =
        emittedHashes (trackers.foldl
          (fun acc t =>
            mhEvents maxH true
              (createStates uip true t.pastStates) t.appliedEvents 0 acc)
          ⟨[], [], []⟩) := rfl
    rw [this, ← h]
    exact hinv.nodup
  · intro uip maxH trackers p hp
    have hsub := mhFoldl_false_hashes_sub uip maxH trackers ⟨[], [], []⟩
      ⟨[], [], []⟩ rfl (by intro h hh; simp [emittedHashes] at hh)
      (exampleHash p)
      (List.mem_map_of_mem exampleHash hp)
    have hinv := mhFoldl_dedup_inv uip maxH trackers ⟨[], [], []⟩
      ⟨rfl, rfl, List.nodup_nil⟩
    rw [hinv.hashedEq] at hsub
    exact hsub

/-- C4 witness: permuted dictionaries hash identically, and running the
deduplicating loop on two copies of the same tracker emits each example
once, with the non-deduplicated run's hashes all represented. -/
theorem hash_example_dedup_witness :
    hashExample [none, some [("intent_hi", 1), ("prev_listen", 1)]] "a" =
      hashExample [none, some [("prev_listen", 1), ("intent_hi", 1)]] "a"
    ∧ (((mhTrainingStatesAndActions false 2 true
          [sampleTracker, sampleTracker]).1.zip
          (mhTrainingStatesAndActions false 2 true
            [sampleTracker, sampleTracker]).2).map exampleHash).Nodup
    ∧ exampleHash ([some [("intent_hi", 1)],
          some [("intent_hi", 1), ("prev_listen", 1)]], ["utter_hi"]) ∈
        ((mhTrainingStatesAndActions false 2 true
            [sampleTracker, sampleTracker]).1.zip
            (mhTrainingStatesAndActions false 2 true
              [sampleTracker, sampleTracker]).2).map exampleHash := by
  refine ⟨?_, ?_, ?_⟩
  · refine hash_example_dedup.1 _ _ "a" ?_
    refine List.Forall₂.cons (.inl ⟨rfl, rfl⟩) ?_
    refine List.Forall₂.cons
      (.inr ⟨[("intent_hi", 1), ("prev_listen", 1)],
             [("prev_listen", 1), ("intent_hi", 1)], rfl, rfl, ?_⟩)
      List.Forall₂.nil
    exact List.Perm.swap _ _ _
  · exact hash_example_dedup.2.1 false 2 [sampleTracker, sampleTracker]
  · refine hash_example_dedup.2.2 false 2 [sampleTracker, sampleTracker]
      ([some [("intent_hi", 1)],
        some [("intent_hi", 1), ("prev_listen", 1)]], ["utter_hi"]) ?_
    decide

/-- C9: the duplicate-intent compressor maps `ppSeq` over the batch and
keeps every sequence's length; position `j` is changed exactly when its
turn is truthy and its first intent key equals the remembered intent of
the preceding turns (`lastSeenIntent`, whose fold ignores falsy and
intent-free turns instead of resetting), in which case precisely that
key is deleted; every other turn passes through unchanged. -/
theorem postprocess_deletes_repeated_intent :
    (∀ tas : List (List (Option State)),
        postprocessTrackersAsStates tas = tas.map (ppSeq none))
    ∧ (∀ seq : List (Option State), (ppSeq none seq).length = seq.length)
    ∧ (∀ (seq : List (Option State)) (j : Nat) (s : State) (k : String),
        seq[j]? = some (some s) → s.isEmpty = false →
        firstIntentKey s = some k →
        lastSeenIntent none (seq.take j) = some k →
        (ppSeq none seq)[j]? = some (some (dictDel s k)))
    ∧ (∀ (seq : List (Option State)) (j : Nat) (turn : Option State),
        seq[j]? = some turn →
        (∀ (s : State) (k : String), turn = some s → s.isEmpty = false →
          firstIntentKey s = some k →
          lastSeenIntent none (seq.take j) ≠ some k) →
        (ppSeq none seq)[j]? = some turn) := by
  refine ⟨fun tas => rfl, fun seq => ppSeq_length_eq seq none, ?_, ?_⟩
  · intro seq j s k hj hE hk hlast
    rw [ppSeq_getElem?, hj, hlast]
    simp only [Option.map_some']
    simp only [ppTurn, hE, Bool.false_eq_true, if_false, hk, if_pos]
  · intro seq j turn hj hcond
    rw [ppSeq_getElem?, hj]
    simp only [Option.map_some']
    match turn with
    | none => rfl
    | some s =>
      simp only [ppTurn]
      by_cases hE : s.isEmpty
      · rw [if_pos hE]
      · rw [if_neg hE]
        match hk : firstIntentKey s with
        | none => rfl
        | some k =>
          show some ((if some k = lastSeenIntent none (List.take j seq)
              then ((some (dictDel s k) : Option State),
                    lastSeenIntent none (List.take j seq))
              else (some s, some k)).1) = some (some s)
          rw [if_neg (fun h => hcond s k rfl (by simpa using hE) hk h.symm)]

/-- C9 witness: in the sequence
`[intent_hi, intent_hi+slot, None, intent_hi, intent_bye]` the repeated
`intent_hi` is deleted at position 1 and — across the `None` gap, which
does not reset the memory — at position 3, while `intent_bye` at
position 4 is kept. -/
theorem postprocess_deletes_repeated_intent_witness :
    (ppSeq none [some [("intent_hi", 1)],
        some [("intent_hi", 1), ("slot_x", 2)], none,
        some [("intent_hi", 1)], some [("intent_bye", 1)]])[1]? =
      some (some [("slot_x", 2)])
    ∧ (ppSeq none [some [("intent_hi", 1)],
        some [("intent_hi", 1), ("slot_x", 2)], none,
        some [("intent_hi", 1)], some [("intent_bye", 1)]])[3]? =
      some (some [])
    ∧ (ppSeq none [some [("intent_hi", 1)],
        some [("intent_hi", 1), ("slot_x", 2)], none,
        some [("intent_hi", 1)], some [("intent_bye", 1)]])[4]? =
      some (some [("intent_bye", 1)]) := by
  refine ⟨?_, ?_, ?_⟩
  · have h := postprocess_deletes_repeated_intent.2.2.1
      [some [("intent_hi", 1)], some [("intent_hi", 1), ("slot_x", 2)],
       none, some [("intent_hi", 1)], some [("intent_bye", 1)]]
      1 [("intent_hi", 1), ("slot_x", 2)] "intent_hi"
      (by rfl) (by rfl) (by decide) (by decide)
    rw [h]
    decide
  · have h := postprocess_deletes_repeated_intent.2.2.1
      [some [("intent_hi", 1)], some [("intent_hi", 1), ("slot_x", 2)],
       none, some [("intent_hi", 1)], some [("intent_bye", 1)]]
      3 [("intent_hi", 1)] "intent_hi"
      (by rfl) (by rfl) (by decide) (by decide)
    rw [h]
    decide
  · exact postprocess_deletes_repeated_intent.2.2.2
      [some [("intent_hi", 1)], some [("intent_hi", 1), ("slot_x", 2)],
       none, some [("intent_hi", 1)], some [("intent_bye", 1)]]
      4 (some [("intent_bye", 1)]) (by rfl)
      (by
        intro s k hs hE hk
        cases hs
        cases hk
        decide)

/-- C1 counterexample: a state whose single intent feature has weight
`-1.0` (the loop's initial running best): the claim demands that exactly
one intent feature be retained with weight `1.0`, but `_create_states`
deletes it — the result holds no intent feature at all. -/
theorem create_states_drops_lone_low_intent :
    (([("intent_a", -1)] : List (String × ℚ)).filter
        (fun p => isIntentKey p.1)).length = 1
    ∧ createStates false false [[("intent_a", -1)]] = [[]] := by
  constructor
  · decide
  · decide

/-- C1 (amended): for a state with pairwise-distinct feature names,
`_create_states` (non-probabilistic, non-binary mode) leaves a state
without intent features unchanged; when the intent features decompose as
`pre ++ (k, w) :: post` with every earlier weight strictly below `w`,
every later weight at most `w` (first-seen maximum under strict `>`) and
`w` above the initial running best `-1.0`, exactly the intent feature
`k` survives, forced to weight `1.0`, while every non-intent feature
keeps its key and weight; and when every intent weight is at most
`-1.0`, every intent feature is deleted and none is forced to `1.0`. -/
theorem create_states_single_best_intent :
    (∀ past : List (List (String × ℚ)),
        createStates false false past = past.map binarizeState)
    ∧ (∀ s : List (String × ℚ), (s.map Prod.fst).Nodup →
        (intentEntries s = [] → binarizeState s = s)
        ∧ (∀ (pre post : List (String × ℚ)) (k : String) (w : ℚ),
            intentEntries s = pre ++ (k, w) :: post →
            (∀ p ∈ pre, p.2 < w) → (∀ p ∈ post, p.2 ≤ w) → -1 < w →
            (binarizeState s).filter (fun p => isIntentKey p.1) = [(k, 1)]
            ∧ (binarizeState s).filter (fun p => !isIntentKey p.1) =
                s.filter (fun p => !isIntentKey p.1))
        ∧ ((∀ p ∈ intentEntries s, p.2 ≤ -1) →
            binarizeState s = s.filter (fun p => !isIntentKey p.1))) := by
  refine ⟨fun past => rfl, ?_⟩
  intro s hnd
  refine ⟨?_, ?_, ?_⟩
  · intro hE
    rw [binarizeState_none s hnd
      (runBest_none_of_all_le s (by rw [hE]; intro p hp; simp at hp))]
    apply List.filter_eq_self.mpr
    intro p hp
    simp only [Bool.not_eq_eq_eq_not, Bool.not_true]
    by_cases hI : isIntentKey p.1
    · exfalso
      have : p ∈ intentEntries s := List.mem_filter.mpr ⟨hp, hI⟩
      rw [hE] at this
      simp at this
    · simpa using hI
  · intro pre post k w hdecomp hpre hpost hw
    have hF := runBest_decomp s pre post k w hdecomp hpre hpost hw
    have hkw_int : (k, w) ∈ intentEntries s := by
      rw [hdecomp]
      exact List.mem_append_right pre (List.mem_cons_self (k, w) post)
    have hkw_mem : (k, w) ∈ s := (List.mem_filter.mp hkw_int).1
    have hkI : isIntentKey k = true := (List.mem_filter.mp hkw_int).2
    rw [binarizeState_some s hnd k hF]
    have hmemB : (k, w) ∈ s.filter (fun p =>
        !isIntentKey p.1 || decide (k = p.1)) :=
      List.mem_filter.mpr ⟨hkw_mem, by simp⟩
    have hany : (s.filter (fun p =>
        !isIntentKey p.1 || decide (k = p.1))).any
          (fun p => p.1 == k) = true :=
      List.any_eq_true.mpr ⟨(k, w), hmemB, by simp⟩
    simp only [dictSet, hany, if_true]
    have hufst : ∀ p : String × ℚ,
        ((if p.1 == k then (k, (1 : ℚ)) else p)).1 = p.1 := by
      intro p
      by_cases hpk : p.1 == k
      · rw [if_pos hpk]
        exact (beq_iff_eq.mp hpk).symm
      · rw [if_neg hpk]
    constructor
    · rw [List.filter_map]
      have hc1 : (s.filter (fun p =>
          !isIntentKey p.1 || decide (k = p.1))).filter
            ((fun p => isIntentKey p.1) ∘
              (fun p => if p.1 == k then (k, (1 : ℚ)) else p)) =
          (s.filter (fun p =>
            !isIntentKey p.1 || decide (k = p.1))).filter
              (fun p => isIntentKey p.1) :=
        List.filter_congr (fun p _ => by
          show isIntentKey ((if p.1 == k then (k, (1:ℚ)) else p)).1 = _
          rw [hufst p])
      rw [hc1, List.filter_filter]
      have hc2 : s.filter (fun a =>
          isIntentKey a.1 && (!isIntentKey a.1 || decide (k = a.1))) =
          s.filter (fun a => a.1 == k) := by
        refine List.filter_congr (fun a _ => ?_)
        by_cases hIa : isIntentKey a.1
        · by_cases hak : a.1 = k
          · simp [hIa, hak, hkI]
          · have hka : ¬k = a.1 := fun h => hak h.symm
            simp [hIa, hak, hka]
        · have hak : a.1 ≠ k := by
            intro h
            rw [h] at hIa
            exact hIa hkI
          simp at hIa
          simp [hIa, hak]
      rw [hc2, filter_key_unique s k w hnd hkw_mem]
      simp
    · rw [List.filter_map]
      have hc1 : (s.filter (fun p =>
          !isIntentKey p.1 || decide (k = p.1))).filter
            ((fun p => !isIntentKey p.1) ∘
              (fun p => if p.1 == k then (k, (1 : ℚ)) else p)) =
          (s.filter (fun p =>
            !isIntentKey p.1 || decide (k = p.1))).filter
              (fun p => !isIntentKey p.1) :=
        List.filter_congr (fun p _ => by
          simp only [Function.comp_apply]
          rw [hufst p])
      rw [hc1, List.filter_filter]
      have hc2 : s.filter (fun a =>
          !isIntentKey a.1 && (!isIntentKey a.1 || decide (k = a.1))) =
          s.filter (fun a => !isIntentKey a.1) := by
        refine List.filter_congr (fun a _ => ?_)
        by_cases hIa : isIntentKey a.1
        · simp [hIa]
        · simp at hIa
          simp [hIa]
      rw [hc2]
      refine List.map_congr_left (fun p hp => ?_) |>.trans (List.map_id _)
      rcases List.mem_filter.mp hp with ⟨_, hnp⟩
      have : (p.1 == k) = false := by
        rw [beq_eq_false_iff_ne]
        intro h
        rw [h] at hnp
        rw [hkI] at hnp
        simp at hnp
      rw [this]
      simp
  · intro hall
    exact binarizeState_none s hnd (runBest_none_of_all_le s hall)

/-- C1 witness: the amended theorem instantiated at
`[intent_a: 2, slot_x: 5, intent_b: 3, intent_c: 3]`: `intent_b` is the
first-seen maximum, survives alone with weight `1.0`, and `slot_x` is
untouched; a state without intents is unchanged; a lone intent of weight
`-2` is deleted. -/
theorem create_states_single_best_intent_witness :
    (binarizeState [("intent_a", 2), ("slot_x", 5), ("intent_b", 3),
        ("intent_c", 3)]).filter (fun p => isIntentKey p.1) =
      [("intent_b", 1)]
    ∧ (binarizeState [("intent_a", 2), ("slot_x", 5), ("intent_b", 3),
        ("intent_c", 3)]).filter (fun p => !isIntentKey p.1) =
      [("slot_x", 5)]
    ∧ binarizeState [("slot_x", 5)] = [("slot_x", 5)]
    ∧ binarizeState [("intent_a", -2)] =
        ([("intent_a", -2)] : List (String × ℚ)).filter
          (fun p => !isIntentKey p.1) := by
  have h := (create_states_single_best_intent.2
    [("intent_a", 2), ("slot_x", 5), ("intent_b", 3), ("intent_c", 3)]
    (by decide)).2.1 [("intent_a", 2)] [("intent_c", 3)] "intent_b" 3
    (by decide) (by decide) (by decide) (by decide)
  refine ⟨h.1, ?_, ?_, ?_⟩
  · rw [h.2]
    decide
  · exact (create_states_single_best_intent.2 [("slot_x", 5)]
      (by decide)).1 (by decide)
  · exact (create_states_single_best_intent.2 [("intent_a", -2)]
      (by decide)).2.2 (by decide)

/-- C10: `create_X` is prediction-state building followed by state
encoding and nothing else: its result is exactly `_featurize_states`
applied to the variant's `prediction_states` output (with a configured
featurizer it encodes those raw rows verbatim, so the duplicate-intent
compressor is never applied and repeated intents survive in prediction
inputs, and the featurizer is used as given — never calibrated); the
only error it can surface is the attribute error of an absent encoder,
never the missing-state-featurizer `ValueError`; that configuration
error, the calibration `prepare_from_domain`, and the compressor live
only in `featurize_trackers`, whose successful result always carries the
calibrated featurizer. -/
theorem createX_skips_training_only_steps :
    (∀ (predS : List Tracker → List (List (Option State)))
       (pad : List (Option State) → List (Option State))
       (sf : Option SingleStateF) (trackers : List Tracker),
        createX predS pad sf trackers =
          Except.map Prod.fst (featurizeStates pad sf (predS trackers)))
    ∧ (∀ (predS : List Tracker → List (List (Option State)))
         (pad : List (Option State) → List (Option State))
         (f : SingleStateF) (trackers : List Tracker),
        createX predS pad (some f) trackers =
          .ok ((predS trackers).map (fun ts =>
            (if (predS trackers).length > 1 then pad ts else ts).map
              f.encode)))
    ∧ (∀ (predS : List Tracker → List (List (Option State)))
         (pad : List (Option State) → List (Option State))
         (sf : Option SingleStateF) (trackers : List Tracker)
         (e : String),
        createX predS pad sf trackers = .error e →
        e = attributeErrorMsg)
    ∧ (∀ (uip : Bool) (trackers : List Tracker) (d : Domain),
        fullFeaturizeTrackers uip none trackers d =
          .error missingFeaturizerMsg)
    ∧ (∀ (uip : Bool) (f : SingleStateF) (trackers : List Tracker)
         (d : Domain) (r : DialogueTrainingDataM) (f' : SingleStateF),
        fullFeaturizeTrackers uip (some f) trackers d = .ok (r, f') →
        f' = f.prepareFromDomain d ∧ f'.prepared = true) := by
  refine ⟨?_, ?_, ?_, fun uip trackers d => rfl, ?_⟩
  · intro predS pad sf trackers
    simp only [createX]
    cases hfs : featurizeStates pad sf (predS trackers) with
    | error e => rfl
    | ok v => rfl
  · intro predS pad f trackers
    simp only [createX, featurizeStates_some, except_bind_ok]
  · intro predS pad sf trackers e h
    simp only [createX] at h
    cases hfs : featurizeStates pad sf (predS trackers) with
    | error e' =>
      rw [hfs, except_bind_err] at h
      injection h with h'
      exact h' ▸ featurizeStates_error_msg pad sf (predS trackers) e' hfs
    | ok v =>
      rw [hfs, except_bind_ok] at h
      cases h
  · intro uip f trackers d r f' h
    simp only [fullFeaturizeTrackers] at h
    cases htr : fullTrainingStatesAndActions uip trackers with
    | error e => rw [htr, except_bind_err] at h; cases h
    | ok v =>
      rw [htr, except_bind_ok] at h
      obtain ⟨tas, taa, ml⟩ := v
      dsimp only at h
      cases ml with
      | none =>
        rw [featurizeStates_some, except_bind_ok] at h
        cases hy : featurizeLabels (fun l => l) d taa with
        | error e => rw [hy, except_bind_err] at h; cases h
        | ok y =>
          rw [hy, except_bind_ok] at h
          injection h with h'
          rw [Prod.mk.injEq] at h'
          exact ⟨h'.2.symm, by rw [← h'.2]; rfl⟩
      | some m =>
        rw [featurizeStates_some, except_bind_ok] at h
        cases hy : featurizeLabels (fun l => padStates m l) d taa with
        | error e => rw [hy, except_bind_err] at h; cases h
        | ok y =>
          rw [hy, except_bind_ok] at h
          injection h with h'
          rw [Prod.mk.injEq] at h'
          exact ⟨h'.2.symm, by rw [← h'.2]; rfl⟩

/-- C10 witness: on a tracker with two consecutive identical intents,
`create_X` encodes both raw prediction turns (the repeated intent is
kept, each turn still carrying its one feature); a missing featurizer
makes `create_X` fail with the attribute error, not the configuration
error, which `featurize_trackers` raises; and a successful
`featurize_trackers` hands back the calibrated featurizer. -/
theorem createX_skips_training_only_steps_witness :
    createX (fullPredictionStates false) id (some revealingF)
        [dupIntentTracker] = .ok [[[1], [1]]]
    ∧ ("NoneType object has no attribute encode" : String) =
        attributeErrorMsg
    ∧ fullFeaturizeTrackers false none [dupIntentTracker] sampleDomain =
        .error missingFeaturizerMsg
    ∧ (revealingF.prepareFromDomain sampleDomain).prepared = true := by
  refine ⟨?_, ?_, ?_, ?_⟩
  · have h := createX_skips_training_only_steps.2.1
      (fullPredictionStates false) id revealingF [dupIntentTracker]
    rw [h]
    rfl
  · exact createX_skips_training_only_steps.2.2.1
      (fullPredictionStates false) id none [dupIntentTracker]
      "NoneType object has no attribute encode" (by rfl)
  · exact createX_skips_training_only_steps.2.2.2.1 false
      [dupIntentTracker] sampleDomain
  · exact (createX_skips_training_only_steps.2.2.2.2 false revealingF
      [dupIntentTracker] sampleDomain
      ⟨[[[1]]], [[]], [1]⟩ (revealingF.prepareFromDomain sampleDomain)
      (by rfl)).2

end RasaFeaturizers
